import Mathlib

/-!
Verification development for the concentration-reconstruction engine of the
beautyboostr repository (`src/engine.py`).

Modelling choices:
* Python dictionaries are modelled as insertion-ordered association lists
  (`insertKV` replaces in place, preserving insertion order, exactly like a
  CPython `dict` assignment).
* Python floats are modelled by exact rationals (`ℚ`).
* The external fuzzy matcher (`thefuzz.process.extractOne` applied to a
  singleton candidate list, `src/engine.py` line 150) is abstracted as a
  score function `String → String → ℕ` compared against the source's
  literal threshold `> 95`.
* A raised `ValueError` is modelled as `Except.error`; the engine then
  returns no partial result, matching the `raise` in the source.
-/

set_option maxRecDepth 16384

-- ## Ordered association lists (model of Python dict)

def lookupKV {κ α : Type} [DecidableEq κ] : List (κ × α) → κ → Option α
  | [], _ => none
  | (k', v) :: t, k => if k' = k then some v else lookupKV t k

def insertKV {κ α : Type} [DecidableEq κ] : List (κ × α) → κ → α → List (κ × α)
  | [], k, v => [(k, v)]
  | (k', v') :: t, k, v => if k' = k then (k, v) :: t else (k', v') :: insertKV t k v

def keysOf {κ α : Type} (d : List (κ × α)) : List κ := d.map Prod.fst

def applyWrites {κ α : Type} [DecidableEq κ] (d : List (κ × α)) (ws : List (κ × α)) :
    List (κ × α) :=
  ws.foldl (fun d p => insertKV d p.1 p.2) d

def valD (d : List (String × ℚ)) (k : String) : ℚ := (lookupKV d k).getD 0

/-!
Rational arithmetic. `Rat.add`, `Rat.sub`, `Rat.mul` and `Rat.inv` are marked
`@[irreducible]` upstream, which blocks evaluation of concrete runs inside
proofs, so the engine is written against the following structurally-defined
equivalents (each proved equal to the standard operation below); `qi n` is the
rational literal `n`.
-/

def qi (n : ℤ) : ℚ := mkRat n 1

def qadd (a b : ℚ) : ℚ := mkRat (a.num * b.den + b.num * a.den) (a.den * b.den)

def qsub (a b : ℚ) : ℚ := mkRat (a.num * b.den - b.num * a.den) (a.den * b.den)

def qmul (a b : ℚ) : ℚ := mkRat (a.num * b.num) (a.den * b.den)

def qinv (a : ℚ) : ℚ := Rat.divInt a.den a.num

def qdiv (a b : ℚ) : ℚ := qmul a (qinv b)

def qsum (l : List ℚ) : ℚ := l.foldr qadd 0

def sumPerc (d : List (String × ℚ)) : ℚ := qsum (d.map Prod.snd)

theorem qadd_eq (a b : ℚ) : qadd a b = a + b := (Rat.add_def' a b).symm

theorem qsub_eq (a b : ℚ) : qsub a b = a - b := (Rat.sub_def' a b).symm

theorem qmul_eq (a b : ℚ) : qmul a b = a * b := by
  rw [qmul, Rat.mul_def, Rat.normalize_eq_mkRat]

theorem qinv_eq (a : ℚ) : qinv a = a⁻¹ := by
  rw [qinv]
  exact (Rat.inv_def a).symm

theorem qdiv_eq (a b : ℚ) : qdiv a b = a / b := by
  rw [qdiv, qmul_eq, qinv_eq, div_eq_mul_inv]

theorem qi_eq (n : ℤ) : qi n = (n : ℚ) := by
  rw [qi, Rat.mkRat_one]

theorem qsum_eq (l : List ℚ) : qsum l = l.sum := by
  induction l with
  | nil => rfl
  | cons x t ih =>
    rw [qsum, List.foldr_cons, show List.foldr qadd 0 t = qsum t from rfl, ih, qadd_eq,
      List.sum_cons]

theorem sumPerc_eq (d : List (String × ℚ)) : sumPerc d = (d.map Prod.snd).sum := by
  rw [sumPerc, qsum_eq]

-- ## Character-level string helpers (structural, so that the kernel can run them)

def lowerStr (s : String) : String := String.mk (s.data.map Char.toLower)

def trimList (l : List Char) : List Char :=
  ((l.dropWhile Char.isWhitespace).reverse.dropWhile Char.isWhitespace).reverse

def splitOnChar (c : Char) : List Char → List (List Char)
  | [] => [[]]
  | x :: t =>
    match splitOnChar c t with
    | [] => [[]]
    | h :: r => if x = c then [] :: h :: r else (x :: h) :: r

def natToStrAux : ℕ → ℕ → List Char
  | 0, _ => []
  | fuel + 1, n =>
    if n < 10 then [Char.ofNat (48 + n)]
    else natToStrAux fuel (n / 10) ++ [Char.ofNat (48 + n % 10)]

def intToStr (i : ℤ) : String :=
  if i < 0 then String.mk ('-' :: natToStrAux (i.natAbs + 1) i.natAbs)
  else String.mk (natToStrAux (i.toNat + 1) i.toNat)

-- ## parse_known_percentages (src/engine.py lines 53-62)

def digitsVal (l : List Char) : ℕ := l.foldl (fun a c => a * 10 + (c.toNat - 48)) 0

/-- Model of Python `float(...)` on the strings this application feeds it:
an optional sign, then decimal digits with at most one point (exponent
notation is outside the modelled fragment); `none` models `ValueError`. -/
def parseDecimal? (l : List Char) : Option ℚ :=
  let signRest : ℚ × List Char :=
    match l with
    | '-' :: t => (qi (-1), t)
    | '+' :: t => (qi 1, t)
    | t => (qi 1, t)
  let sign := signRest.1
  let rest := signRest.2
  let intPart := rest.takeWhile Char.isDigit
  let after := rest.drop intPart.length
  match after with
  | [] => if intPart.isEmpty then none else some (qmul sign (qi (digitsVal intPart)))
  | '.' :: frac =>
      if frac.all Char.isDigit && !(intPart.isEmpty && frac.isEmpty) then
        some (qmul sign (qadd (qi (digitsVal intPart))
          (qdiv (qi (digitsVal frac)) (qi ((10 ^ frac.length : ℕ))))))
      else none
  | _ => none

/-- Faithful translation of `parse_known_percentages`: split the input on
commas, keep only pairs containing a colon whose percentage part parses as
a number, and map the trimmed lower-cased name to the value (a later entry
for the same name overwrites the earlier one, as in a Python dict). -/
def parse_known_percentages (s : String) : List (String × ℚ) :=
  if s = "" then []
  else
    (splitOnChar ',' s.data).foldl (fun acc pair =>
      if ':' ∈ pair then
        let name := pair.takeWhile (fun c => c ≠ ':')
        let percStr := (pair.dropWhile (fun c => c ≠ ':')).drop 1
        match parseDecimal? (trimList percStr) with
        | some v => insertKV acc (lowerStr (String.mk (trimList name))) v
        | none => acc
      else acc) []

-- ## estimate_percentages (src/engine.py lines 133-228)

structure Profile where
  base_solvent_range : ℚ × ℚ
deriving DecidableEq

/-- Structured content of the `ValueError` message raised at
`src/engine.py` line 153: the previous anchor's reported name and
percentage and the offending ingredient's name and percentage. -/
structure EngineError where
  prevName : String
  prevPerc : ℚ
  name : String
  perc : ℚ
deriving DecidableEq

/-- Source line 150: the first known-percentage entry (in dict order) whose
fuzzy match against this slot's name scores above 95. -/
def findAnchor (score : String → String → ℕ) (knowns : List (String × ℚ))
    (name : String) : Option ℚ :=
  (knowns.find? (fun kv => decide (95 < score kv.1 name))).map Prod.snd

/-- Source line 152: the first key of the anchor map whose stored index is
`lastIdx`, with the f-string fallback for the initial sentinel index `-1`. -/
def prevAnchorName (m : List (String × ℚ × ℕ)) (lastIdx : ℤ) : String :=
  match m.find? (fun kv => ((kv.2.2 : ℤ) == lastIdx)) with
  | some kv => kv.1
  | none => "Ingredient at position " ++ intToStr (lastIdx + 1)

/-- Source lines 144-159 (step 1): scan slots in order, place each matching
known percentage as an anchor, and raise on a strictly increasing pair.
The scan state is the anchor map and the last placed value/index, with the
source's initial sentinels `101.0` and `-1`. -/
def placeAnchorsAux (score : String → String → ℕ) (knowns : List (String × ℚ)) :
    List String → ℕ → List (String × ℚ × ℕ) → ℚ → ℤ →
      Except EngineError (List (String × ℚ × ℕ))
  | [], _, m, _, _ => .ok m
  | name :: rest, i, m, lastPerc, lastIdx =>
    match findAnchor score knowns name with
    | none => placeAnchorsAux score knowns rest (i + 1) m lastPerc lastIdx
    | some p =>
      if lastPerc < p then
        .error ⟨prevAnchorName m lastIdx, lastPerc, name, p⟩
      else
        placeAnchorsAux score knowns rest (i + 1) (insertKV m name (p, i)) p i

def placeAnchors (score : String → String → ℕ) (knowns : List (String × ℚ))
    (inci : List String) : Except EngineError (List (String × ℚ × ℕ)) :=
  placeAnchorsAux score knowns inci 0 [] (qi 101) (-1)

/-- Source line 142: `percentages = {name: 0.0 for name in inci_list}`. -/
def initPerc (inci : List String) : List (String × ℚ) :=
  inci.foldl (fun d n => insertKV d n 0) []

/-- The percentage dict as it stands after step 1: every anchored name holds
its anchor value (each `percentages[name] = known_perc` write at line 155 is
paired with the map write at line 156, so the dict is determined by the map). -/
def anchorPerc (m : List (String × ℚ × ℕ)) (inci : List String) : List (String × ℚ) :=
  m.foldl (fun d kv => insertKV d kv.1 kv.2.1) (initPerc inci)

/-- Source line 164: index of the first unanchored slot whose name is a
one-percent marker, or the list length if there is none. -/
def onePercentLineIndex (markers : List String) (m : List (String × ℚ × ℕ)) :
    List String → ℕ
  | [] => 0
  | ing :: rest =>
    if ing ∈ markers ∧ lookupKV m ing = none then 0
    else onePercentLineIndex markers m rest + 1

/-- Source lines 169-171: the usage-range midpoint capped at 1.0, looked up
under the lower-cased name, profile-specific if present, else the table's
"default" entry, else the fixed default range `[0.05, 0.5]`. -/
def usageMid (usage : List (String × List (String × ℚ × ℚ)))
    (profileKey : String) (ing : String) : ℚ :=
  let ingRanges := (lookupKV usage (lowerStr ing)).getD []
  let pr :=
    match lookupKV ingRanges profileKey with
    | some p => p
    | none => (lookupKV ingRanges "default").getD (qdiv (qi 1) (qi 20), qdiv (qi 1) (qi 2))
  min (qdiv (qadd pr.1 pr.2) (qi 2)) (qi 1)

/-- Source lines 166-172 (step 2): the sequence of dict writes for the
sub-line zone, one per unanchored slot at or after the line. -/
def subLineWrites (usage : List (String × List (String × ℚ × ℚ)))
    (profileKey : String) (m : List (String × ℚ × ℕ)) (inci : List String)
    (line : ℕ) : List (String × ℚ) :=
  (List.range inci.length).filterMap (fun i =>
    if line ≤ i then
      let ing := inci.getD i ""
      if lookupKV m ing = none then some (ing, usageMid usage profileKey ing)
      else none
    else none)

/-- Source line 175: anchors with index strictly above the line, in map
insertion order, as (index, percentage) pairs. -/
def anchorsAbove (m : List (String × ℚ × ℕ)) (line : ℕ) : List (ℤ × ℚ) :=
  m.filterMap (fun kv =>
    if kv.2.2 < line then some ((kv.2.2 : ℤ), kv.2.1) else none)

/-- Source line 178, the dict comprehension `{v['index']: v for v in all_anchors}`:
deduplicate by index, a later entry overwriting an earlier one. -/
def dedupeByIdx (l : List (ℤ × ℚ)) : List (ℤ × ℚ) :=
  l.foldl (fun d a => insertKV d a.1 a.2) []

def insSorted (a : ℤ × ℚ) : List (ℤ × ℚ) → List (ℤ × ℚ)
  | [] => [a]
  | b :: t => if a.1 ≤ b.1 then a :: b :: t else b :: insSorted a t

/-- Stable sort by index, modelling `sorted(..., key=lambda x: x['index'])`. -/
def sortByIdx : List (ℤ × ℚ) → List (ℤ × ℚ)
  | [] => []
  | a :: t => insSorted a (sortByIdx t)

/-- Source line 177-178: the synthetic start anchor at index `-1`, the known
anchors above the line, and the synthetic end anchor pinned to 1.0 at the
line index, deduplicated by index and sorted. -/
def allAnchors (startPerc : ℚ) (m : List (String × ℚ × ℕ)) (line : ℕ) :
    List (ℤ × ℚ) :=
  sortByIdx (dedupeByIdx (((-1 : ℤ), startPerc) :: anchorsAbove m line ++ [((line : ℤ), qi 1)]))

/-- Source lines 185-193: the dict writes of one interpolation segment. -/
def segWrites (m : List (String × ℚ × ℕ)) (inci : List String) (a b : ℤ × ℚ) :
    List (String × ℚ) :=
  let n : ℤ := b.1 - a.1 - 1
  if 0 < n then
    let step : ℚ := qdiv (qsub a.2 b.2) (qadd (n : ℚ) (qi 1))
    (List.range n.toNat).filterMap (fun (j : ℕ) =>
      let nm := inci.getD (a.1 + 1 + (j : ℤ)).toNat ""
      if lookupKV m nm = none then some (nm, qsub a.2 (qmul step (qadd (j : ℚ) (qi 1))))
      else none)
  else []

/-- Source line 180: each consecutive pair of sorted anchors forms a segment. -/
def interpWrites (m : List (String × ℚ × ℕ)) (inci : List String) :
    List (ℤ × ℚ) → List (String × ℚ)
  | a :: b :: rest => segWrites m inci a b ++ interpWrites m inci (b :: rest)
  | _ => []

/-- Steps 2 and 3 of the source (lines 161-193) for a given synthetic start
anchor value: the percentage dict just before the final adjustment. -/
def interpStage (startPerc : ℚ) (m : List (String × ℚ × ℕ)) (inci : List String)
    (markers : List String) (usage : List (String × List (String × ℚ × ℚ)))
    (profileKey : String) : List (String × ℚ) :=
  let line := onePercentLineIndex markers m inci
  let d1 := anchorPerc m inci
  let d2 := applyWrites d1 (subLineWrites usage profileKey m inci line)
  applyWrites d2 (interpWrites m inci (allAnchors startPerc m line))

/-- Source lines 200-202: index of the first user-supplied anchor, or the
list length when there is none. -/
def firstAnchorIdx (m : List (String × ℚ × ℕ)) (len : ℕ) : ℕ :=
  match m.map (fun kv => kv.2.2) with
  | [] => len
  | x :: t => t.foldl min x

/-- Source lines 205-208: unanchored names among the positions before the
first anchor (kept as a list: a duplicated name appears twice). -/
def ingredientsToAdjust (m : List (String × ℚ × ℕ)) (inci : List String)
    (fai : ℕ) : List String :=
  (inci.take fai).filter (fun n => (lookupKV m n).isNone)

/-- Source lines 215-217: the sequential proportional update over the block. -/
def adjustStep (adj bs : ℚ) (names : List String) (d : List (String × ℚ)) :
    List (String × ℚ) :=
  names.foldl (fun d n => insertKV d n (qadd (valD d n) (qmul adj (qdiv (valD d n) bs)))) d

/-- Source lines 195-223 (step 4): the final proportional adjustment, with
the fallback write to the first unanchored name when the block sums to zero. -/
def finalAdjust (m : List (String × ℚ × ℕ)) (inci : List String)
    (d : List (String × ℚ)) : List (String × ℚ) :=
  let adj := qsub (qi 100) (sumPerc d)
  let fai := firstAnchorIdx m inci.length
  let block := ingredientsToAdjust m inci fai
  let bs := qsum (block.map (valD d))
  if 0 < bs then adjustStep adj bs block d
  else if adj ≠ 0 then
    match inci.find? (fun n => (lookupKV m n).isNone) with
    | some n => insertKV d n (qadd (valD d n) adj)
    | none => d
  else d

/-- Faithful translation of `estimate_percentages` (src/engine.py lines
133-228). The returned association list models the source's final
`[{"name": name, "estimated_percentage": perc} for name, perc in
percentages.items()]`: one entry per distinct name, in first-occurrence
order. The synthetic start anchor is `profile["base_solvent_range"][0]`
(line 176); the profile is modelled with the field always present, since
the source's `[50, 80]` fallback only fires for malformed profile data. -/
def estimate_percentages (score : String → String → ℕ) (inci : List String)
    (profile : Profile) (markers : List String)
    (usage : List (String × List (String × ℚ × ℚ)))
    (knowns : List (String × ℚ)) (profileKey : String) :
    Except EngineError (List (String × ℚ)) :=
  match placeAnchors score knowns inci with
  | .error e => .error e
  | .ok m =>
    .ok (finalAdjust m inci
      (interpStage profile.base_solvent_range.1 m inci markers usage profileKey))

-- ## Auxiliary definitions used only to state claims

/-- A concrete scorer standing in for the external fuzzy matcher in witness
inputs: 100 on equal strings, 0 otherwise (consistent with `thefuzz` on
identical strings and on entirely dissimilar ones). -/
def exactScore (a b : String) : ℕ := if a = b then 100 else 0

/-- The known-percentage values that resolve to some slot, in slot order:
the anchor sequence the specification's order rule quantifies over. -/
def resolvedAnchorPercs (score : String → String → ℕ)
    (knowns : List (String × ℚ)) (inci : List String) : List ℚ :=
  inci.filterMap (findAnchor score knowns)

/-- First-occurrence deduplication of a name list: the key order of a Python
dict built by inserting the names in order. -/
def firstKeys (inci : List String) : List String :=
  inci.foldl (fun ks n => if n ∈ ks then ks else ks ++ [n]) []

def isOkE {ε α : Type} : Except ε α → Bool
  | .ok _ => true
  | .error _ => false

instance {ε α : Type} [DecidableEq ε] [DecidableEq α] : DecidableEq (Except ε α) := fun x y =>
  match x, y with
  | .ok a, .ok b =>
    match decEq a b with
    | isTrue h => isTrue (congrArg Except.ok h)
    | isFalse h => isFalse (fun e => h (Except.ok.inj e))
  | .error a, .error b =>
    match decEq a b with
    | isTrue h => isTrue (congrArg Except.error h)
    | isFalse h => isFalse (fun e => h (Except.error.inj e))
  | .ok _, .error _ => isFalse (fun e => Except.noConfusion e)
  | .error _, .ok _ => isFalse (fun e => Except.noConfusion e)


/-- Second definition for the search claim, following the specification's
words (§4.1 step 5): a bounded bisection over the profile's base range with
a fixed budget of 15 rounds; each candidate runs the full interpolation, the
sum is compared with 100 to pick the next half-interval, and the best-seen
assignment by `|sum − 100|` is retained. The source performs no such search. -/
def specSearchLoop (m : List (String × ℚ × ℕ)) (inci markers : List String)
    (usage : List (String × List (String × ℚ × ℚ))) (profileKey : String) :
    ℕ → ℚ → ℚ → Option (List (String × ℚ) × ℚ) → List (String × ℚ)
  | 0, _, _, best => (best.map Prod.fst).getD []
  | fuel + 1, lo, hi, best =>
    let mid := qdiv (qadd lo hi) (qi 2)
    let d := interpStage mid m inci markers usage profileKey
    let s := sumPerc d
    let err := |qsub s (qi 100)|
    let best' :=
      match best with
      | none => some (d, err)
      | some (b, e) => if err < e then some (d, err) else some (b, e)
    if qi 100 < s then specSearchLoop m inci markers usage profileKey fuel lo mid best'
    else specSearchLoop m inci markers usage profileKey fuel mid hi best'

def specSearchBase (m : List (String × ℚ × ℕ)) (inci markers : List String)
    (usage : List (String × List (String × ℚ × ℚ))) (profileKey : String)
    (lo hi : ℚ) : List (String × ℚ) :=
  specSearchLoop m inci markers usage profileKey 15 lo hi none


-- ## Association-list lemmas

theorem lookupKV_insert_self {κ α : Type} [DecidableEq κ] (d : List (κ × α)) (k : κ) (v : α) :
    lookupKV (insertKV d k v) k = some v := by
  induction d with
  | nil => simp [insertKV, lookupKV]
  | cons p t ih =>
    obtain ⟨k', v'⟩ := p
    by_cases h : k' = k
    · subst h
      simp [insertKV, lookupKV]
    · simp [insertKV, lookupKV, h, ih]

theorem lookupKV_insert_ne {κ α : Type} [DecidableEq κ] (d : List (κ × α)) (k k₂ : κ) (v : α)
    (h : k₂ ≠ k) : lookupKV (insertKV d k v) k₂ = lookupKV d k₂ := by
  have h' : ¬ k = k₂ := fun e => h e.symm
  induction d with
  | nil => simp [insertKV, lookupKV, h']
  | cons p t ih =>
    obtain ⟨k', v'⟩ := p
    by_cases hk : k' = k
    · subst hk
      simp [insertKV, lookupKV, h']
    · simp only [insertKV, if_neg hk, lookupKV]
      by_cases hk2 : k' = k₂
      · simp [hk2]
      · simp [hk2, ih]

theorem mem_insertKV {κ α : Type} [DecidableEq κ] (d : List (κ × α)) (k : κ) (v : α)
    (p : κ × α) (h : p ∈ insertKV d k v) : p = (k, v) ∨ p ∈ d := by
  induction d with
  | nil => simpa [insertKV] using h
  | cons q t ih =>
    obtain ⟨k', v'⟩ := q
    by_cases hk : k' = k
    · subst hk
      simp only [insertKV, if_pos rfl] at h
      rcases List.mem_cons.1 h with h1 | h1
      · exact Or.inl h1
      · exact Or.inr (List.mem_cons_of_mem _ h1)
    · simp only [insertKV, if_neg hk] at h
      rcases List.mem_cons.1 h with h1 | h1
      · exact Or.inr (h1 ▸ List.mem_cons_self _ _)
      · rcases ih h1 with h2 | h2
        · exact Or.inl h2
        · exact Or.inr (List.mem_cons_of_mem _ h2)

theorem keysOf_insertKV_mem {κ α : Type} [DecidableEq κ] (d : List (κ × α)) (k : κ) (v : α)
    (h : k ∈ keysOf d) : keysOf (insertKV d k v) = keysOf d := by
  induction d with
  | nil => simp [keysOf] at h
  | cons q t ih =>
    obtain ⟨k', v'⟩ := q
    by_cases hk : k' = k
    · subst hk
      simp [insertKV, keysOf]
    · simp only [keysOf, List.map_cons, List.mem_cons] at h
      rcases h with h1 | h1
      · exact absurd h1.symm hk
      · simp only [insertKV, if_neg hk, keysOf, List.map_cons, List.cons.injEq, true_and]
        exact ih h1

theorem keysOf_insertKV_not_mem {κ α : Type} [DecidableEq κ] (d : List (κ × α)) (k : κ) (v : α)
    (h : k ∉ keysOf d) : keysOf (insertKV d k v) = keysOf d ++ [k] := by
  induction d with
  | nil => simp [insertKV, keysOf]
  | cons q t ih =>
    obtain ⟨k', v'⟩ := q
    simp only [keysOf, List.map_cons, List.mem_cons] at h
    have h1 : ¬ k = k' := fun e => h (Or.inl e)
    have h2 : k ∉ List.map Prod.fst t := fun e => h (Or.inr e)
    have h3 : ¬ k' = k := fun e => h1 (Eq.symm e)
    simp only [insertKV, if_neg h3, keysOf, List.map_cons, List.cons_append,
      List.cons.injEq, true_and]
    exact ih h2

theorem nodup_keysOf_insertKV {κ α : Type} [DecidableEq κ] (d : List (κ × α)) (k : κ) (v : α)
    (h : (keysOf d).Nodup) : (keysOf (insertKV d k v)).Nodup := by
  by_cases hm : k ∈ keysOf d
  · rw [keysOf_insertKV_mem d k v hm]
    exact h
  · rw [keysOf_insertKV_not_mem d k v hm]
    refine List.Nodup.append h (List.nodup_singleton _) ?_
    intro a ha hb
    rw [List.mem_singleton] at hb
    exact hm (hb ▸ ha)

theorem lookupKV_eq_some_mem {κ α : Type} [DecidableEq κ] (d : List (κ × α)) (k : κ) (v : α)
    (h : lookupKV d k = some v) : (k, v) ∈ d := by
  induction d with
  | nil => simp [lookupKV] at h
  | cons q t ih =>
    obtain ⟨k', v'⟩ := q
    by_cases hk : k' = k
    · subst hk
      simp only [lookupKV, if_pos rfl, Option.some.injEq] at h
      cases h
      exact List.mem_cons_self _ _
    · simp only [lookupKV, if_neg hk] at h
      exact List.mem_cons_of_mem _ (ih h)

theorem lookupKV_eq_none_iff {κ α : Type} [DecidableEq κ] (d : List (κ × α)) (k : κ) :
    lookupKV d k = none ↔ k ∉ keysOf d := by
  induction d with
  | nil => simp [lookupKV, keysOf]
  | cons q t ih =>
    obtain ⟨k', v'⟩ := q
    by_cases hk : k' = k
    · subst hk
      simp [lookupKV, keysOf]
    · rw [show lookupKV ((k', v') :: t) k = if k' = k then some v' else lookupKV t k from rfl,
        if_neg hk]
      constructor
      · intro hnone
        intro hmem
        simp only [keysOf, List.map_cons, List.mem_cons] at hmem
        rcases hmem with h1 | h1
        · exact hk h1.symm
        · exact (ih.1 hnone) h1
      · intro hmem
        apply ih.2
        intro hmem2
        exact hmem (by simp only [keysOf, List.map_cons, List.mem_cons]; exact Or.inr hmem2)

theorem lookupKV_of_mem_nodup {κ α : Type} [DecidableEq κ] (d : List (κ × α)) (k : κ) (v : α)
    (h : (k, v) ∈ d) (hnd : (keysOf d).Nodup) : lookupKV d k = some v := by
  induction d with
  | nil => simp at h
  | cons q t ih =>
    obtain ⟨k', v'⟩ := q
    simp only [keysOf, List.map_cons, List.nodup_cons] at hnd
    rcases List.mem_cons.1 h with h1 | h1
    · injection h1 with e1 e2
      subst e1
      subst e2
      simp [lookupKV]
    · have hk : k' ≠ k := by
        intro e
        subst e
        exact hnd.1 (List.mem_map_of_mem Prod.fst h1)
      rw [show lookupKV ((k', v') :: t) k = if k' = k then some v' else lookupKV t k from rfl,
        if_neg hk]
      exact ih h1 hnd.2

theorem sumPerc_insertKV (d : List (String × ℚ)) (k : String) (v : ℚ) :
    sumPerc (insertKV d k v) = sumPerc d + v - (lookupKV d k).getD 0 := by
  induction d with
  | nil =>
    rw [sumPerc_eq, sumPerc_eq]
    simp [insertKV, lookupKV]
  | cons q t ih =>
    obtain ⟨k', v'⟩ := q
    by_cases hk : k' = k
    · subst hk
      rw [show insertKV ((k', v') :: t) k' v = (k', v) :: t from by simp [insertKV]]
      rw [show lookupKV ((k', v') :: t) k' = some v' from by simp [lookupKV]]
      rw [sumPerc_eq, sumPerc_eq]
      simp only [List.map_cons, List.sum_cons, Option.getD_some]
      ring
    · rw [show insertKV ((k', v') :: t) k v = (k', v') :: insertKV t k v from by
        simp [insertKV, hk]]
      rw [show lookupKV ((k', v') :: t) k = lookupKV t k from by simp [lookupKV, hk]]
      rw [sumPerc_eq, sumPerc_eq]
      simp only [List.map_cons, List.sum_cons]
      have h2 := ih
      rw [sumPerc_eq, sumPerc_eq] at h2
      rw [h2]
      ring

theorem applyWrites_nil {κ α : Type} [DecidableEq κ] (d : List (κ × α)) :
    applyWrites d [] = d := rfl

theorem applyWrites_cons {κ α : Type} [DecidableEq κ] (d : List (κ × α)) (p : κ × α)
    (ws : List (κ × α)) : applyWrites d (p :: ws) = applyWrites (insertKV d p.1 p.2) ws := rfl

theorem applyWrites_append {κ α : Type} [DecidableEq κ] (d : List (κ × α))
    (ws₁ ws₂ : List (κ × α)) :
    applyWrites d (ws₁ ++ ws₂) = applyWrites (applyWrites d ws₁) ws₂ := by
  simp [applyWrites, List.foldl_append]

theorem lookupKV_applyWrites_not_mem {κ α : Type} [DecidableEq κ] (ws : List (κ × α))
    (d : List (κ × α)) (k : κ) (h : ∀ p ∈ ws, p.1 ≠ k) :
    lookupKV (applyWrites d ws) k = lookupKV d k := by
  induction ws generalizing d with
  | nil => rfl
  | cons p t ih =>
    rw [applyWrites_cons]
    rw [ih _ (fun q hq => h q (List.mem_cons_of_mem _ hq))]
    exact lookupKV_insert_ne _ _ _ _ (fun e => h p (List.mem_cons_self _ _) e.symm)

theorem mem_applyWrites {κ α : Type} [DecidableEq κ] (ws : List (κ × α)) (d : List (κ × α))
    (p : κ × α) (h : p ∈ applyWrites d ws) : p ∈ d ∨ p ∈ ws := by
  induction ws generalizing d with
  | nil => exact Or.inl h
  | cons q t ih =>
    rw [applyWrites_cons] at h
    rcases ih _ h with h1 | h1
    · rcases mem_insertKV _ _ _ _ h1 with h2 | h2
      · exact Or.inr (h2 ▸ List.mem_cons_self _ _)
      · exact Or.inl h2
    · exact Or.inr (List.mem_cons_of_mem _ h1)

theorem keysOf_applyWrites_sub {κ α : Type} [DecidableEq κ] (ws : List (κ × α))
    (d : List (κ × α)) (h : ∀ p ∈ ws, p.1 ∈ keysOf d) :
    keysOf (applyWrites d ws) = keysOf d := by
  induction ws generalizing d with
  | nil => rfl
  | cons q t ih =>
    rw [applyWrites_cons]
    have hq : q.1 ∈ keysOf d := h q (List.mem_cons_self _ _)
    have hkeys : keysOf (insertKV d q.1 q.2) = keysOf d := keysOf_insertKV_mem _ _ _ hq
    rw [ih _ (fun p hp => hkeys ▸ h p (List.mem_cons_of_mem _ hp)), hkeys]

theorem lookupKV_applyWrites_once {κ α : Type} [DecidableEq κ] (ws₁ ws₂ : List (κ × α))
    (d : List (κ × α)) (k : κ) (v : α) (h : ∀ p ∈ ws₂, p.1 ≠ k) :
    lookupKV (applyWrites d (ws₁ ++ (k, v) :: ws₂)) k = some v := by
  rw [applyWrites_append, applyWrites_cons]
  rw [lookupKV_applyWrites_not_mem _ _ _ h]
  exact lookupKV_insert_self _ _ _

theorem lookupKV_applyWrites_nodup {κ α : Type} [DecidableEq κ] (ws : List (κ × α))
    (d : List (κ × α)) (k : κ) (v : α) (hmem : (k, v) ∈ ws) (hnd : (keysOf ws).Nodup) :
    lookupKV (applyWrites d ws) k = some v := by
  induction ws generalizing d with
  | nil => simp at hmem
  | cons q t ih =>
    simp only [keysOf, List.map_cons, List.nodup_cons] at hnd
    rcases List.mem_cons.1 hmem with h1 | h1
    · subst h1
      rw [applyWrites_cons]
      rw [lookupKV_applyWrites_not_mem _ _ _ (fun p hp e => hnd.1 (by
        rw [← e]
        exact List.mem_map.2 ⟨p, hp, rfl⟩))]
      exact lookupKV_insert_self _ _ _
    · rw [applyWrites_cons]
      exact ih _ h1 hnd.2

-- ## Fold characterizations of the engine's dict-building steps

theorem foldl_insert_zero_eq (l : List String) (d : List (String × ℚ)) :
    l.foldl (fun d n => insertKV d n 0) d = applyWrites d (l.map (fun n => (n, (0 : ℚ)))) := by
  induction l generalizing d with
  | nil => rfl
  | cons n t ih => simp [List.foldl_cons, applyWrites_cons, ih]

theorem initPerc_eq (inci : List String) :
    initPerc inci = applyWrites [] (inci.map (fun n => (n, (0 : ℚ)))) :=
  foldl_insert_zero_eq inci []

theorem anchorPerc_eq (m : List (String × ℚ × ℕ)) (inci : List String) :
    anchorPerc m inci = applyWrites (initPerc inci) (m.map (fun kv => (kv.1, kv.2.1))) := by
  show m.foldl (fun d kv => insertKV d kv.1 kv.2.1) (initPerc inci) = _
  generalize initPerc inci = d
  induction m generalizing d with
  | nil => rfl
  | cons kv t ih => simp [List.foldl_cons, applyWrites_cons, ih]

theorem dedupeByIdx_eq (l : List (ℤ × ℚ)) : dedupeByIdx l = applyWrites [] l := rfl

theorem mem_firstKeys_aux (n : String) (l : List String) (ks : List String) :
    n ∈ l.foldl (fun ks n => if n ∈ ks then ks else ks ++ [n]) ks ↔ n ∈ ks ∨ n ∈ l := by
  induction l generalizing ks with
  | nil => simp
  | cons m t ih =>
    simp only [List.foldl_cons, ih, List.mem_cons]
    by_cases hm : m ∈ ks
    · rw [if_pos hm]
      constructor
      · rintro (h | h)
        · exact Or.inl h
        · exact Or.inr (Or.inr h)
      · rintro (h | h | h)
        · exact Or.inl h
        · exact Or.inl (h ▸ hm)
        · exact Or.inr h
    · rw [if_neg hm]
      simp only [List.mem_append, List.mem_singleton]
      constructor
      · rintro ((h | h) | h)
        · exact Or.inl h
        · exact Or.inr (Or.inl h)
        · exact Or.inr (Or.inr h)
      · rintro (h | h | h)
        · exact Or.inl (Or.inl h)
        · exact Or.inl (Or.inr h)
        · exact Or.inr h

theorem mem_firstKeys (n : String) (l : List String) : n ∈ firstKeys l ↔ n ∈ l := by
  rw [firstKeys, mem_firstKeys_aux]
  simp

theorem keysOf_foldl_insert (l : List String) (d : List (String × ℚ)) :
    keysOf (l.foldl (fun d n => insertKV d n 0) d) =
      l.foldl (fun ks n => if n ∈ ks then ks else ks ++ [n]) (keysOf d) := by
  induction l generalizing d with
  | nil => rfl
  | cons n t ih =>
    simp only [List.foldl_cons]
    rw [ih]
    by_cases hm : n ∈ keysOf d
    · rw [keysOf_insertKV_mem _ _ _ hm, if_pos hm]
    · rw [keysOf_insertKV_not_mem _ _ _ hm, if_neg hm]

theorem keysOf_initPerc (inci : List String) : keysOf (initPerc inci) = firstKeys inci :=
  keysOf_foldl_insert inci []

theorem mem_keysOf_initPerc (inci : List String) (n : String) (h : n ∈ inci) :
    n ∈ keysOf (initPerc inci) := by
  rw [keysOf_initPerc, mem_firstKeys]
  exact h

theorem initPerc_val (inci : List String) (p : String × ℚ) (h : p ∈ initPerc inci) :
    p.2 = 0 := by
  rw [initPerc_eq] at h
  rcases mem_applyWrites _ _ _ h with h1 | h1
  · simp at h1
  · rcases List.mem_map.1 h1 with ⟨n, _, e⟩
    rw [← e]

-- ## Anchor-placement lemmas

theorem findAnchor_some (score : String → String → ℕ) (knowns : List (String × ℚ))
    (name : String) (p : ℚ) (h : findAnchor score knowns name = some p) :
    ∃ e ∈ knowns, e.2 = p ∧ 95 < score e.1 name := by
  rw [findAnchor] at h
  rcases Option.map_eq_some'.1 h with ⟨kv, hfind, hsnd⟩
  refine ⟨kv, List.mem_of_find?_eq_some hfind, hsnd, ?_⟩
  have := List.find?_some hfind
  exact of_decide_eq_true this

theorem placeAnchorsAux_cons_none (score : String → String → ℕ) (knowns : List (String × ℚ))
    (name : String) (rest : List String) (i : ℕ) (m : List (String × ℚ × ℕ)) (lp : ℚ) (li : ℤ)
    (hfa : findAnchor score knowns name = none) :
    placeAnchorsAux score knowns (name :: rest) i m lp li =
      placeAnchorsAux score knowns rest (i + 1) m lp li := by
  rw [placeAnchorsAux, hfa]

theorem placeAnchorsAux_cons_lt (score : String → String → ℕ) (knowns : List (String × ℚ))
    (name : String) (rest : List String) (i : ℕ) (m : List (String × ℚ × ℕ)) (lp : ℚ) (li : ℤ)
    (p : ℚ) (hfa : findAnchor score knowns name = some p) (hlt : lp < p) :
    placeAnchorsAux score knowns (name :: rest) i m lp li =
      .error ⟨prevAnchorName m li, lp, name, p⟩ := by
  rw [placeAnchorsAux, hfa]
  exact if_pos hlt

theorem placeAnchorsAux_cons_ge (score : String → String → ℕ) (knowns : List (String × ℚ))
    (name : String) (rest : List String) (i : ℕ) (m : List (String × ℚ × ℕ)) (lp : ℚ) (li : ℤ)
    (p : ℚ) (hfa : findAnchor score knowns name = some p) (hlt : ¬ lp < p) :
    placeAnchorsAux score knowns (name :: rest) i m lp li =
      placeAnchorsAux score knowns rest (i + 1) (insertKV m name (p, i)) p i := by
  rw [placeAnchorsAux, hfa]
  exact if_neg hlt

theorem placeAnchorsAux_values (score : String → String → ℕ) (knowns : List (String × ℚ))
    (l : List String) :
    ∀ (i : ℕ) (m : List (String × ℚ × ℕ)) (lp : ℚ) (li : ℤ) (m' : List (String × ℚ × ℕ)),
      placeAnchorsAux score knowns l i m lp li = .ok m' →
      (∀ kv ∈ m, ∃ e ∈ knowns, e.2 = kv.2.1 ∧ 95 < score e.1 kv.1) →
      ∀ kv ∈ m', ∃ e ∈ knowns, e.2 = kv.2.1 ∧ 95 < score e.1 kv.1 := by
  induction l with
  | nil =>
    intro i m lp li m' h hm
    simp only [placeAnchorsAux, Except.ok.injEq] at h
    exact h ▸ hm
  | cons name rest ih =>
    intro i m lp li m' h hm
    cases hfa : findAnchor score knowns name with
    | none =>
      rw [placeAnchorsAux_cons_none _ _ _ _ _ _ _ _ hfa] at h
      exact ih _ _ _ _ _ h hm
    | some p =>
      by_cases hlt : lp < p
      · rw [placeAnchorsAux_cons_lt _ _ _ _ _ _ _ _ _ hfa hlt] at h
        exact absurd h (by simp)
      · rw [placeAnchorsAux_cons_ge _ _ _ _ _ _ _ _ _ hfa hlt] at h
        refine ih _ _ _ _ _ h ?_
        intro kv hkv
        rcases mem_insertKV _ _ _ _ hkv with h1 | h1
        · subst h1
          rcases findAnchor_some score knowns name p hfa with ⟨e, he, e2, esc⟩
          exact ⟨e, he, e2, esc⟩
        · exact hm kv h1

theorem placeAnchorsAux_nodup (score : String → String → ℕ) (knowns : List (String × ℚ))
    (l : List String) :
    ∀ (i : ℕ) (m : List (String × ℚ × ℕ)) (lp : ℚ) (li : ℤ) (m' : List (String × ℚ × ℕ)),
      placeAnchorsAux score knowns l i m lp li = .ok m' →
      (keysOf m).Nodup → (keysOf m').Nodup := by
  induction l with
  | nil =>
    intro i m lp li m' h hm
    simp only [placeAnchorsAux, Except.ok.injEq] at h
    exact h ▸ hm
  | cons name rest ih =>
    intro i m lp li m' h hm
    cases hfa : findAnchor score knowns name with
    | none =>
      rw [placeAnchorsAux_cons_none _ _ _ _ _ _ _ _ hfa] at h
      exact ih _ _ _ _ _ h hm
    | some p =>
      by_cases hlt : lp < p
      · rw [placeAnchorsAux_cons_lt _ _ _ _ _ _ _ _ _ hfa hlt] at h
        exact absurd h (by simp)
      · rw [placeAnchorsAux_cons_ge _ _ _ _ _ _ _ _ _ hfa hlt] at h
        exact ih _ _ _ _ _ h (nodup_keysOf_insertKV _ _ _ hm)

theorem placeAnchorsAux_keys (score : String → String → ℕ) (knowns : List (String × ℚ))
    (P : String → Prop) (l : List String) :
    ∀ (i : ℕ) (m : List (String × ℚ × ℕ)) (lp : ℚ) (li : ℤ) (m' : List (String × ℚ × ℕ)),
      placeAnchorsAux score knowns l i m lp li = .ok m' →
      (∀ kv ∈ m, P kv.1) → (∀ n ∈ l, P n) →
      ∀ kv ∈ m', P kv.1 := by
  induction l with
  | nil =>
    intro i m lp li m' h hm _
    simp only [placeAnchorsAux, Except.ok.injEq] at h
    exact h ▸ hm
  | cons name rest ih =>
    intro i m lp li m' h hm hl
    cases hfa : findAnchor score knowns name with
    | none =>
      rw [placeAnchorsAux_cons_none _ _ _ _ _ _ _ _ hfa] at h
      exact ih _ _ _ _ _ h hm (fun n hn => hl n (List.mem_cons_of_mem _ hn))
    | some p =>
      by_cases hlt : lp < p
      · rw [placeAnchorsAux_cons_lt _ _ _ _ _ _ _ _ _ hfa hlt] at h
        exact absurd h (by simp)
      · rw [placeAnchorsAux_cons_ge _ _ _ _ _ _ _ _ _ hfa hlt] at h
        refine ih _ _ _ _ _ h ?_ (fun n hn => hl n (List.mem_cons_of_mem _ hn))
        intro kv hkv
        rcases mem_insertKV _ _ _ _ hkv with h1 | h1
        · subst h1
          exact hl name (List.mem_cons_self _ _)
        · exact hm kv h1

theorem placeAnchorsAux_ok_chain (score : String → String → ℕ) (knowns : List (String × ℚ))
    (l : List String) :
    ∀ (i : ℕ) (m : List (String × ℚ × ℕ)) (lp : ℚ) (li : ℤ) (m' : List (String × ℚ × ℕ)),
      placeAnchorsAux score knowns l i m lp li = .ok m' →
      List.Chain' (fun a b => b ≤ a) (lp :: resolvedAnchorPercs score knowns l) := by
  induction l with
  | nil =>
    intro i m lp li m' _
    simp [resolvedAnchorPercs]
  | cons name rest ih =>
    intro i m lp li m' h
    cases hfa : findAnchor score knowns name with
    | none =>
      rw [placeAnchorsAux_cons_none _ _ _ _ _ _ _ _ hfa] at h
      rw [resolvedAnchorPercs, List.filterMap_cons, hfa]
      exact ih _ _ _ _ _ h
    | some p =>
      by_cases hlt : lp < p
      · rw [placeAnchorsAux_cons_lt _ _ _ _ _ _ _ _ _ hfa hlt] at h
        exact absurd h (by simp)
      · rw [placeAnchorsAux_cons_ge _ _ _ _ _ _ _ _ _ hfa hlt] at h
        rw [resolvedAnchorPercs, List.filterMap_cons, hfa]
        rw [List.chain'_cons]
        exact ⟨not_lt.1 hlt, ih _ _ _ _ _ h⟩

theorem chain_placeAnchorsAux_ok (score : String → String → ℕ) (knowns : List (String × ℚ))
    (l : List String) :
    ∀ (i : ℕ) (m : List (String × ℚ × ℕ)) (lp : ℚ) (li : ℤ),
      List.Chain' (fun a b => b ≤ a) (lp :: resolvedAnchorPercs score knowns l) →
      ∃ m', placeAnchorsAux score knowns l i m lp li = .ok m' := by
  induction l with
  | nil =>
    intro i m lp li _
    exact ⟨m, rfl⟩
  | cons name rest ih =>
    intro i m lp li hch
    cases hfa : findAnchor score knowns name with
    | none =>
      rw [resolvedAnchorPercs, List.filterMap_cons, hfa] at hch
      rw [placeAnchorsAux_cons_none _ _ _ _ _ _ _ _ hfa]
      exact ih _ _ _ _ hch
    | some p =>
      rw [resolvedAnchorPercs, List.filterMap_cons, hfa] at hch
      rw [List.chain'_cons] at hch
      rw [placeAnchorsAux_cons_ge _ _ _ _ _ _ _ _ _ hfa (not_lt.2 hch.1)]
      exact ih _ _ _ _ hch.2

-- ## Line index, sub-line zone and anchor-list lemmas

theorem onePercentLineIndex_le (markers : List String) (m : List (String × ℚ × ℕ)) :
    ∀ (inci : List String), onePercentLineIndex markers m inci ≤ inci.length := by
  intro inci
  induction inci with
  | nil => simp [onePercentLineIndex]
  | cons ing rest ih =>
    rw [onePercentLineIndex]
    by_cases h : ing ∈ markers ∧ lookupKV m ing = none
    · rw [if_pos h]
      simp
    · rw [if_neg h]
      simpa using ih

theorem mem_subLineWrites (usage : List (String × List (String × ℚ × ℚ)))
    (profileKey : String) (m : List (String × ℚ × ℕ)) (inci : List String) (line : ℕ)
    (p : String × ℚ) (h : p ∈ subLineWrites usage profileKey m inci line) :
    ∃ i, line ≤ i ∧ i < inci.length ∧ p.1 = inci.getD i "" ∧
      p.2 = usageMid usage profileKey p.1 ∧ lookupKV m p.1 = none := by
  rw [subLineWrites] at h
  rcases List.mem_filterMap.1 h with ⟨i, hi, hcond⟩
  by_cases hline : line ≤ i
  · rw [if_pos hline] at hcond
    by_cases hm : lookupKV m (inci.getD i "") = none
    · rw [if_pos hm] at hcond
      injection hcond with e
      refine ⟨i, hline, List.mem_range.1 hi, ?_, ?_, ?_⟩
      · rw [← e]
      · rw [← e]
      · rw [← e]
        exact hm
    · rw [if_neg hm] at hcond
      exact absurd hcond (by simp)
  · rw [if_neg hline] at hcond
    exact absurd hcond (by simp)

theorem subLineWrites_val_le_one (usage : List (String × List (String × ℚ × ℚ)))
    (profileKey : String) (m : List (String × ℚ × ℕ)) (inci : List String) (line : ℕ)
    (p : String × ℚ) (h : p ∈ subLineWrites usage profileKey m inci line) : p.2 ≤ 1 := by
  rcases mem_subLineWrites usage profileKey m inci line p h with ⟨i, _, _, _, hval, _⟩
  rw [hval, usageMid]
  exact min_le_right _ _

theorem mem_insSorted (a : ℤ × ℚ) (l : List (ℤ × ℚ)) (p : ℤ × ℚ)
    (h : p ∈ insSorted a l) : p = a ∨ p ∈ l := by
  induction l with
  | nil => simpa [insSorted] using h
  | cons b t ih =>
    rw [insSorted] at h
    by_cases hle : a.1 ≤ b.1
    · rw [if_pos hle] at h
      rcases List.mem_cons.1 h with h1 | h1
      · exact Or.inl h1
      · exact Or.inr h1
    · rw [if_neg hle] at h
      rcases List.mem_cons.1 h with h1 | h1
      · exact Or.inr (h1 ▸ List.mem_cons_self _ _)
      · rcases ih h1 with h2 | h2
        · exact Or.inl h2
        · exact Or.inr (List.mem_cons_of_mem _ h2)

theorem mem_sortByIdx (l : List (ℤ × ℚ)) (p : ℤ × ℚ) (h : p ∈ sortByIdx l) : p ∈ l := by
  induction l with
  | nil => simpa [sortByIdx] using h
  | cons a t ih =>
    rw [sortByIdx] at h
    rcases mem_insSorted _ _ _ h with h1 | h1
    · exact h1 ▸ List.mem_cons_self _ _
    · exact List.mem_cons_of_mem _ (ih h1)

theorem mem_dedupeByIdx (l : List (ℤ × ℚ)) (p : ℤ × ℚ) (h : p ∈ dedupeByIdx l) : p ∈ l := by
  rw [dedupeByIdx_eq] at h
  rcases mem_applyWrites _ _ _ h with h1 | h1
  · simp at h1
  · exact h1

theorem mem_anchorsAbove (m : List (String × ℚ × ℕ)) (line : ℕ) (p : ℤ × ℚ)
    (h : p ∈ anchorsAbove m line) :
    ∃ kv ∈ m, kv.2.2 < line ∧ p = ((kv.2.2 : ℤ), kv.2.1) := by
  rw [anchorsAbove] at h
  rcases List.mem_filterMap.1 h with ⟨kv, hkv, hcond⟩
  by_cases hlt : kv.2.2 < line
  · rw [if_pos hlt] at hcond
    injection hcond with e
    exact ⟨kv, hkv, hlt, e.symm⟩
  · rw [if_neg hlt] at hcond
    exact absurd hcond (by simp)

theorem mem_allAnchors (startPerc : ℚ) (m : List (String × ℚ × ℕ)) (line : ℕ) (p : ℤ × ℚ)
    (h : p ∈ allAnchors startPerc m line) :
    p = ((-1 : ℤ), startPerc) ∨
      (∃ kv ∈ m, kv.2.2 < line ∧ p = ((kv.2.2 : ℤ), kv.2.1)) ∨
      p = ((line : ℤ), 1) := by
  rw [allAnchors] at h
  have h1 := mem_dedupeByIdx _ _ (mem_sortByIdx _ _ h)
  rcases List.mem_cons.1 h1 with h2 | h2
  · exact Or.inl h2
  · rcases List.mem_append.1 h2 with h3 | h3
    · exact Or.inr (Or.inl (mem_anchorsAbove _ _ _ h3))
    · rw [List.mem_singleton] at h3
      exact Or.inr (Or.inr h3)

theorem allAnchors_idx_bounds (startPerc : ℚ) (m : List (String × ℚ × ℕ)) (line : ℕ)
    (p : ℤ × ℚ) (h : p ∈ allAnchors startPerc m line) :
    -1 ≤ p.1 ∧ p.1 ≤ (line : ℤ) := by
  rcases mem_allAnchors _ _ _ _ h with h1 | h1 | h1
  · rw [h1]
    constructor
    · simp only []
      omega
    · simp only []
      omega
  · rcases h1 with ⟨kv, _, hlt, e⟩
    rw [e]
    constructor
    · simp only []
      omega
    · simp only []
      omega
  · rw [h1]
    constructor
    · simp only []
      omega
    · simp only []
      omega

-- ## Interpolation-zone lemmas

theorem mem_segWrites (m : List (String × ℚ × ℕ)) (inci : List String) (a b : ℤ × ℚ)
    (p : String × ℚ) (h : p ∈ segWrites m inci a b) :
    ∃ j : ℕ, 0 < b.1 - a.1 - 1 ∧ (j : ℤ) < b.1 - a.1 - 1 ∧
      p.1 = inci.getD (a.1 + 1 + (j : ℤ)).toNat "" ∧
      p.2 = qsub a.2 (qmul (qdiv (qsub a.2 b.2) (qadd ((b.1 - a.1 - 1 : ℤ) : ℚ) (qi 1)))
        (qadd (j : ℚ) (qi 1))) ∧
      lookupKV m p.1 = none := by
  rw [segWrites] at h
  by_cases hn : (0 : ℤ) < b.1 - a.1 - 1
  · rw [if_pos hn] at h
    rcases List.mem_filterMap.1 h with ⟨j, hj, hcond⟩
    by_cases hm : lookupKV m (inci.getD (a.1 + 1 + (j : ℤ)).toNat "") = none
    · rw [if_pos hm] at hcond
      injection hcond with e
      have hjn : (j : ℤ) < b.1 - a.1 - 1 := by
        have := List.mem_range.1 hj
        omega
      refine ⟨j, hn, hjn, ?_, ?_, ?_⟩
      · rw [← e]
      · rw [← e]
      · rw [← e]
        exact hm
    · rw [if_neg hm] at hcond
      exact absurd hcond (by simp)
  · rw [if_neg hn] at h
    exact absurd h (by simp)

theorem mem_interpWrites (m : List (String × ℚ × ℕ)) (inci : List String)
    (Q : ℤ × ℚ → Prop) :
    ∀ (anchors : List (ℤ × ℚ)), (∀ x ∈ anchors, Q x) →
      ∀ p ∈ interpWrites m inci anchors, ∃ a b, Q a ∧ Q b ∧ p ∈ segWrites m inci a b := by
  intro anchors
  induction anchors with
  | nil =>
    intro _ p hp
    simp [interpWrites] at hp
  | cons a t ih =>
    intro hQ p hp
    cases t with
    | nil => simp [interpWrites] at hp
    | cons b rest =>
      rw [interpWrites] at hp
      rcases List.mem_append.1 hp with h1 | h1
      · exact ⟨a, b, hQ a (List.mem_cons_self _ _),
          hQ b (List.mem_cons_of_mem _ (List.mem_cons_self _ _)), h1⟩
      · exact ih (fun x hx => hQ x (List.mem_cons_of_mem _ hx)) p h1

theorem interp_val_nonneg (av bv : ℚ) (nz : ℤ) (j : ℕ) (hav : 0 ≤ av) (hbv : 0 ≤ bv)
    (hnz : 0 < nz) (hj : (j : ℤ) < nz) :
    0 ≤ av - ((av - bv) / ((nz : ℚ) + 1)) * ((j : ℚ) + 1) := by
  have hN : (1 : ℚ) ≤ (nz : ℚ) := by exact_mod_cast hnz
  have hJ : (j : ℚ) + 1 ≤ (nz : ℚ) := by
    have : (j : ℤ) + 1 ≤ nz := by omega
    exact_mod_cast this
  have hJ0 : (0 : ℚ) ≤ (j : ℚ) := Nat.cast_nonneg j
  have hden : (0 : ℚ) < (nz : ℚ) + 1 := by linarith
  have key : av - ((av - bv) / ((nz : ℚ) + 1)) * ((j : ℚ) + 1)
      = (av * ((nz : ℚ) - (j : ℚ)) + bv * ((j : ℚ) + 1)) / ((nz : ℚ) + 1) := by
    field_simp
    ring
  rw [key]
  apply div_nonneg _ (le_of_lt hden)
  have h1 : 0 ≤ av * ((nz : ℚ) - (j : ℚ)) := mul_nonneg hav (by linarith)
  have h2 : 0 ≤ bv * ((j : ℚ) + 1) := mul_nonneg hbv (by linarith)
  linarith

theorem interpWrites_names (m : List (String × ℚ × ℕ)) (inci : List String)
    (startPerc : ℚ) (line : ℕ) (hline : line ≤ inci.length) (p : String × ℚ)
    (h : p ∈ interpWrites m inci (allAnchors startPerc m line)) :
    ∃ k : ℕ, k < line ∧ p.1 = inci.getD k "" ∧ lookupKV m p.1 = none := by
  rcases mem_interpWrites m inci (fun x => -1 ≤ x.1 ∧ x.1 ≤ (line : ℤ)) _
    (fun x hx => allAnchors_idx_bounds startPerc m line x hx) p h with ⟨a, b, ha, hb, hseg⟩
  rcases mem_segWrites m inci a b p hseg with ⟨j, hn, hj, hname, _, hm⟩
  refine ⟨(a.1 + 1 + (j : ℤ)).toNat, ?_, hname, hm⟩
  omega

theorem interpWrites_val_nonneg (m : List (String × ℚ × ℕ)) (inci : List String)
    (startPerc : ℚ) (line : ℕ) (hstart : 0 ≤ startPerc)
    (hanch : ∀ kv ∈ m, 0 ≤ kv.2.1) (p : String × ℚ)
    (h : p ∈ interpWrites m inci (allAnchors startPerc m line)) : 0 ≤ p.2 := by
  have hQ : ∀ x ∈ allAnchors startPerc m line, 0 ≤ x.2 := by
    intro x hx
    rcases mem_allAnchors _ _ _ _ hx with h1 | h1 | h1
    · rw [h1]
      exact hstart
    · rcases h1 with ⟨kv, hkv, _, e⟩
      rw [e]
      exact hanch kv hkv
    · rw [h1]
      norm_num
  rcases mem_interpWrites m inci (fun x => 0 ≤ x.2) _ hQ p h with ⟨a, b, ha, hb, hseg⟩
  rcases mem_segWrites m inci a b p hseg with ⟨j, hn, hj, _, hval, _⟩
  rw [hval, qsub_eq, qmul_eq, qdiv_eq, qsub_eq, qadd_eq, qadd_eq, qi_eq]
  have := interp_val_nonneg a.2 b.2 (b.1 - a.1 - 1) j ha hb hn hj
  convert this using 3 <;> push_cast <;> ring

-- ## Values and preservation through the pipeline stages

theorem lookupKV_anchorPerc_of_mem (m : List (String × ℚ × ℕ)) (inci : List String)
    (n : String) (p : ℚ) (i : ℕ) (hnd : (keysOf m).Nodup) (h : (n, p, i) ∈ m) :
    lookupKV (anchorPerc m inci) n = some p := by
  rw [anchorPerc_eq]
  apply lookupKV_applyWrites_nodup
  · exact List.mem_map.2 ⟨(n, p, i), h, rfl⟩
  · show (List.map Prod.fst (m.map (fun kv => (kv.1, kv.2.1)))).Nodup
    rw [List.map_map]
    exact hnd

theorem anchorPerc_val_cases (m : List (String × ℚ × ℕ)) (inci : List String)
    (p : String × ℚ) (h : p ∈ anchorPerc m inci) :
    p.2 = 0 ∨ ∃ kv ∈ m, p.2 = kv.2.1 := by
  rw [anchorPerc_eq] at h
  rcases mem_applyWrites _ _ _ h with h1 | h1
  · exact Or.inl (initPerc_val _ _ h1)
  · rcases List.mem_map.1 h1 with ⟨kv, hkv, e⟩
    right
    exact ⟨kv, hkv, by rw [← e]⟩

theorem usageMid_nonneg (usage : List (String × List (String × ℚ × ℚ)))
    (profileKey ing : String)
    (hu : ∀ e ∈ usage, ∀ r ∈ e.2, 0 ≤ r.2.1 ∧ 0 ≤ r.2.2) :
    0 ≤ usageMid usage profileKey ing := by
  rw [usageMid]
  have hranges : ∀ r ∈ (lookupKV usage (lowerStr ing)).getD [], 0 ≤ r.2.1 ∧ 0 ≤ r.2.2 := by
    cases hl : lookupKV usage (lowerStr ing) with
    | none => simp
    | some l =>
      intro r hr
      exact hu _ (lookupKV_eq_some_mem _ _ _ hl) r (by simpa using hr)
  set ingRanges := (lookupKV usage (lowerStr ing)).getD [] with hIR
  have hpr : ∀ pr : ℚ × ℚ,
      (pr = match lookupKV ingRanges profileKey with
        | some p => p
        | none => (lookupKV ingRanges "default").getD (qdiv (qi 1) (qi 20), qdiv (qi 1) (qi 2))) →
      0 ≤ pr.1 ∧ 0 ≤ pr.2 := by
    intro pr hpr
    cases hk : lookupKV ingRanges profileKey with
    | some q =>
      rw [hk] at hpr
      subst hpr
      exact (hranges _ (lookupKV_eq_some_mem _ _ _ hk))
    | none =>
      rw [hk] at hpr
      cases hd : lookupKV ingRanges "default" with
      | some q =>
        rw [hd] at hpr
        simp only [Option.getD_some] at hpr
        subst hpr
        exact (hranges _ (lookupKV_eq_some_mem _ _ _ hd))
      | none =>
        rw [hd] at hpr
        simp only [Option.getD_none] at hpr
        subst hpr
        refine ⟨?_, ?_⟩ <;> simp only [qdiv_eq, qi_eq] <;> norm_num
  rcases hpr _ rfl with ⟨h1, h2⟩
  have key : ∀ x y : ℚ, 0 ≤ x → 0 ≤ y → 0 ≤ min (qdiv (qadd x y) (qi 2)) (qi 1) := by
    intro x y hx hy
    rw [qdiv_eq, qadd_eq, qi_eq, qi_eq]
    refine le_min ?_ ?_
    · apply div_nonneg (by linarith)
      norm_num
    · norm_num
  exact key _ _ h1 h2

theorem subLineWrites_unanchored (usage : List (String × List (String × ℚ × ℚ)))
    (profileKey : String) (m : List (String × ℚ × ℕ)) (inci : List String) (line : ℕ)
    (p : String × ℚ) (h : p ∈ subLineWrites usage profileKey m inci line) :
    lookupKV m p.1 = none := by
  rcases mem_subLineWrites usage profileKey m inci line p h with ⟨_, _, _, _, _, hm⟩
  exact hm

theorem interpWrites_unanchored (m : List (String × ℚ × ℕ)) (inci : List String)
    (anchors : List (ℤ × ℚ)) (p : String × ℚ) (h : p ∈ interpWrites m inci anchors) :
    lookupKV m p.1 = none := by
  rcases mem_interpWrites m inci (fun _ => True) anchors (fun _ _ => trivial) p h with
    ⟨a, b, _, _, hseg⟩
  rcases mem_segWrites m inci a b p hseg with ⟨_, _, _, _, _, hm⟩
  exact hm

theorem lookupKV_interpStage_anchored (startPerc : ℚ) (m : List (String × ℚ × ℕ))
    (inci markers : List String) (usage : List (String × List (String × ℚ × ℚ)))
    (profileKey : String) (n : String) (p : ℚ) (i : ℕ)
    (hnd : (keysOf m).Nodup) (h : (n, p, i) ∈ m) :
    lookupKV (interpStage startPerc m inci markers usage profileKey) n = some p := by
  have hsome : lookupKV m n = some (p, i) := lookupKV_of_mem_nodup _ _ _ h hnd
  rw [interpStage]
  rw [lookupKV_applyWrites_not_mem _ _ _ (fun q hq e => by
    have := interpWrites_unanchored _ _ _ q hq
    rw [e, hsome] at this
    exact Option.noConfusion this)]
  rw [lookupKV_applyWrites_not_mem _ _ _ (fun q hq e => by
    have := subLineWrites_unanchored _ _ _ _ _ q hq
    rw [e, hsome] at this
    exact Option.noConfusion this)]
  exact lookupKV_anchorPerc_of_mem m inci n p i hnd h

theorem interpStage_val_nonneg (startPerc : ℚ) (m : List (String × ℚ × ℕ))
    (inci markers : List String) (usage : List (String × List (String × ℚ × ℚ)))
    (profileKey : String) (hstart : 0 ≤ startPerc) (hanch : ∀ kv ∈ m, 0 ≤ kv.2.1)
    (hu : ∀ e ∈ usage, ∀ r ∈ e.2, 0 ≤ r.2.1 ∧ 0 ≤ r.2.2) (p : String × ℚ)
    (h : p ∈ interpStage startPerc m inci markers usage profileKey) : 0 ≤ p.2 := by
  rw [interpStage] at h
  rcases mem_applyWrites _ _ _ h with h1 | h1
  · rcases mem_applyWrites _ _ _ h1 with h2 | h2
    · rcases anchorPerc_val_cases m inci p h2 with h3 | ⟨kv, hkv, h3⟩
      · rw [h3]
      · rw [h3]
        exact hanch kv hkv
    · rcases mem_subLineWrites _ _ _ _ _ p h2 with ⟨_, _, _, _, hval, _⟩
      rw [hval]
      exact usageMid_nonneg usage profileKey p.1 hu
  · exact interpWrites_val_nonneg m inci startPerc _ hstart hanch p h1

-- ## Final-adjustment lemmas

theorem lookupKV_adjustStep_not_mem (adj bs : ℚ) (names : List String)
    (d : List (String × ℚ)) (k : String) (h : ∀ x ∈ names, x ≠ k) :
    lookupKV (adjustStep adj bs names d) k = lookupKV d k := by
  induction names generalizing d with
  | nil => rfl
  | cons n t ih =>
    rw [adjustStep, List.foldl_cons]
    rw [show List.foldl (fun d n => insertKV d n (qadd (valD d n) (qmul adj (qdiv (valD d n) bs))))
      (insertKV d n (qadd (valD d n) (qmul adj (qdiv (valD d n) bs)))) t =
      adjustStep adj bs t (insertKV d n (qadd (valD d n) (qmul adj (qdiv (valD d n) bs)))) from rfl]
    rw [ih _ (fun x hx => h x (List.mem_cons_of_mem _ hx))]
    exact lookupKV_insert_ne _ _ _ _ (fun e => h n (List.mem_cons_self _ _) e.symm)

theorem valD_insert_ne (d : List (String × ℚ)) (k k₂ : String) (v : ℚ) (h : k₂ ≠ k) :
    valD (insertKV d k v) k₂ = valD d k₂ := by
  rw [valD, valD, lookupKV_insert_ne _ _ _ _ h]

theorem sumPerc_adjustStep (adj bs : ℚ) (names : List String) (d : List (String × ℚ))
    (hnd : names.Nodup) :
    sumPerc (adjustStep adj bs names d) =
      sumPerc d + adj * ((names.map (valD d)).sum) / bs := by
  induction names generalizing d with
  | nil =>
    simp [adjustStep, sumPerc]
  | cons n t ih =>
    rw [adjustStep, List.foldl_cons]
    rw [show List.foldl (fun d n => insertKV d n (qadd (valD d n) (qmul adj (qdiv (valD d n) bs))))
      (insertKV d n (qadd (valD d n) (qmul adj (qdiv (valD d n) bs)))) t =
      adjustStep adj bs t (insertKV d n (qadd (valD d n) (qmul adj (qdiv (valD d n) bs)))) from rfl]
    have hnodup := List.nodup_cons.1 hnd
    rw [ih _ hnodup.2]
    have hsum : sumPerc (insertKV d n (qadd (valD d n) (qmul adj (qdiv (valD d n) bs))))
        = sumPerc d + adj * (valD d n / bs) := by
      rw [sumPerc_insertKV]
      rw [show (lookupKV d n).getD 0 = valD d n from rfl]
      rw [qadd_eq, qmul_eq, qdiv_eq]
      ring
    rw [hsum]
    have hmap : (t.map (valD (insertKV d n (qadd (valD d n) (qmul adj (qdiv (valD d n) bs)))))).sum
        = (t.map (valD d)).sum := by
      congr 1
      apply List.map_congr_left
      intro x hx
      exact valD_insert_ne _ _ _ _ (fun e => hnodup.1 (e ▸ hx))
    rw [hmap]
    simp only [List.map_cons, List.sum_cons]
    ring

theorem sumPerc_finalAdjust (m : List (String × ℚ × ℕ)) (inci : List String)
    (d : List (String × ℚ)) (hnd : inci.Nodup)
    (hun : ∃ n ∈ inci, lookupKV m n = none) :
    sumPerc (finalAdjust m inci d) = 100 := by
  rw [finalAdjust]
  set adj := qsub (qi 100) (sumPerc d) with hadj
  set fai := firstAnchorIdx m inci.length with hfai
  set block := ingredientsToAdjust m inci fai with hblock
  set bs := qsum (block.map (valD d)) with hbs
  have hadj2 : adj = 100 - sumPerc d := by
    rw [hadj, qsub_eq, qi_eq]
    push_cast
    ring
  by_cases hpos : 0 < bs
  · rw [if_pos hpos]
    have hbnd : block.Nodup := by
      rw [hblock, ingredientsToAdjust]
      exact ((hnd.sublist (List.take_sublist _ _)).filter _)
    rw [sumPerc_adjustStep _ _ _ _ hbnd]
    rw [show (block.map (valD d)).sum = bs from by rw [hbs, qsum_eq]]
    rw [mul_div_assoc, div_self (ne_of_gt hpos), mul_one]
    rw [hadj2]
    ring
  · rw [if_neg hpos]
    by_cases hz : adj ≠ 0
    · rw [if_pos hz]
      rcases hun with ⟨n₀, hn₀, hnone⟩
      cases hfind : inci.find? (fun n => (lookupKV m n).isNone) with
      | none =>
        have := List.find?_eq_none.1 hfind n₀ hn₀
        rw [hnone] at this
        simp at this
      | some n =>
        rw [sumPerc_insertKV]
        rw [show (lookupKV d n).getD 0 = valD d n from rfl]
        rw [qadd_eq, hadj2]
        ring
    · rw [if_neg hz]
      push_neg at hz
      rw [hadj2] at hz
      linarith [hz]

theorem getD_mem_of_lt (l : List String) (i : ℕ) (d : String) (h : i < l.length) :
    l.getD i d ∈ l := by
  induction l generalizing i with
  | nil => simp at h
  | cons x t ih =>
    cases i with
    | zero => simp [List.getD]
    | succ j =>
      have : t.getD j d ∈ t := ih j (by simpa using h)
      simp only [List.getD] at this ⊢
      exact List.mem_cons_of_mem _ this

theorem lookupKV_finalAdjust_anchored (m : List (String × ℚ × ℕ)) (inci : List String)
    (d : List (String × ℚ)) (n : String) (a : ℚ × ℕ) (hsome : lookupKV m n = some a) :
    lookupKV (finalAdjust m inci d) n = lookupKV d n := by
  rw [finalAdjust]
  set adj := qsub (qi 100) (sumPerc d) with hadj
  set fai := firstAnchorIdx m inci.length with hfai
  set block := ingredientsToAdjust m inci fai with hblock
  set bs := qsum (block.map (valD d)) with hbs
  by_cases hpos : 0 < bs
  · rw [if_pos hpos]
    apply lookupKV_adjustStep_not_mem
    intro x hx e
    rw [hblock, ingredientsToAdjust] at hx
    have := List.of_mem_filter hx
    rw [e, hsome] at this
    simp at this
  · rw [if_neg hpos]
    by_cases hz : adj ≠ 0
    · rw [if_pos hz]
      cases hfind : inci.find? (fun n => (lookupKV m n).isNone) with
      | none => rfl
      | some n₁ =>
        apply lookupKV_insert_ne
        intro e
        have := List.find?_some hfind
        rw [← e, hsome] at this
        simp at this
    · rw [if_neg hz]

theorem keysOf_adjustStep (adj bs : ℚ) (names : List String) (d : List (String × ℚ))
    (h : ∀ x ∈ names, x ∈ keysOf d) : keysOf (adjustStep adj bs names d) = keysOf d := by
  induction names generalizing d with
  | nil => rfl
  | cons n t ih =>
    rw [adjustStep, List.foldl_cons]
    rw [show List.foldl (fun d n => insertKV d n (qadd (valD d n) (qmul adj (qdiv (valD d n) bs))))
      (insertKV d n (qadd (valD d n) (qmul adj (qdiv (valD d n) bs)))) t =
      adjustStep adj bs t (insertKV d n (qadd (valD d n) (qmul adj (qdiv (valD d n) bs)))) from rfl]
    have hk : keysOf (insertKV d n (qadd (valD d n) (qmul adj (qdiv (valD d n) bs))))
        = keysOf d :=
      keysOf_insertKV_mem _ _ _ (h n (List.mem_cons_self _ _))
    rw [ih _ (fun x hx => hk ▸ h x (List.mem_cons_of_mem _ hx)), hk]

theorem keysOf_finalAdjust (m : List (String × ℚ × ℕ)) (inci : List String)
    (d : List (String × ℚ)) (hsub : ∀ x ∈ inci, x ∈ keysOf d) :
    keysOf (finalAdjust m inci d) = keysOf d := by
  rw [finalAdjust]
  set adj := qsub (qi 100) (sumPerc d) with hadj
  set fai := firstAnchorIdx m inci.length with hfai
  set block := ingredientsToAdjust m inci fai with hblock
  set bs := qsum (block.map (valD d)) with hbs
  by_cases hpos : 0 < bs
  · rw [if_pos hpos]
    apply keysOf_adjustStep
    intro x hx
    rw [hblock, ingredientsToAdjust] at hx
    exact hsub x (List.mem_of_mem_take (List.mem_of_mem_filter hx))
  · rw [if_neg hpos]
    by_cases hz : adj ≠ 0
    · rw [if_pos hz]
      cases hfind : inci.find? (fun n => (lookupKV m n).isNone) with
      | none => rfl
      | some n₁ =>
        exact keysOf_insertKV_mem _ _ _ (hsub n₁ (List.mem_of_find?_eq_some hfind))
    · rw [if_neg hz]

theorem keysOf_interpStage (startPerc : ℚ) (m : List (String × ℚ × ℕ))
    (inci markers : List String) (usage : List (String × List (String × ℚ × ℚ)))
    (profileKey : String) (hm : ∀ kv ∈ m, kv.1 ∈ inci) :
    keysOf (interpStage startPerc m inci markers usage profileKey) = firstKeys inci := by
  rw [interpStage]
  have hkeys1 : keysOf (anchorPerc m inci) = keysOf (initPerc inci) := by
    rw [anchorPerc_eq]
    apply keysOf_applyWrites_sub
    intro p hp
    rcases List.mem_map.1 hp with ⟨kv, hkv, e⟩
    exact mem_keysOf_initPerc _ _ (by rw [← e]; exact hm kv hkv)
  have hline : onePercentLineIndex markers m inci ≤ inci.length :=
    onePercentLineIndex_le markers m inci
  have hkeys2 : keysOf (applyWrites (anchorPerc m inci)
      (subLineWrites usage profileKey m inci (onePercentLineIndex markers m inci)))
      = keysOf (initPerc inci) := by
    rw [← hkeys1]
    apply keysOf_applyWrites_sub
    intro p hp
    rcases mem_subLineWrites _ _ _ _ _ p hp with ⟨i, _, hilen, hname, _, _⟩
    rw [hkeys1]
    exact mem_keysOf_initPerc _ _ (hname ▸ getD_mem_of_lt inci i "" hilen)
  rw [show keysOf (applyWrites (applyWrites (anchorPerc m inci)
      (subLineWrites usage profileKey m inci (onePercentLineIndex markers m inci)))
      (interpWrites m inci (allAnchors startPerc m (onePercentLineIndex markers m inci))))
      = keysOf (initPerc inci) from ?_]
  · exact keysOf_initPerc inci
  · rw [← hkeys2]
    apply keysOf_applyWrites_sub
    intro p hp
    rcases interpWrites_names m inci startPerc _ hline p hp with ⟨k, hk, hname, _⟩
    rw [hkeys2]
    exact mem_keysOf_initPerc _ _ (hname ▸ getD_mem_of_lt inci k "" (lt_of_lt_of_le hk hline))

-- ## Top-level unfolding and congruence lemmas

theorem estimate_ok (score : String → String → ℕ) (inci : List String) (profile : Profile)
    (markers : List String) (usage : List (String × List (String × ℚ × ℚ)))
    (knowns : List (String × ℚ)) (profileKey : String) (m : List (String × ℚ × ℕ))
    (hpa : placeAnchors score knowns inci = .ok m) :
    estimate_percentages score inci profile markers usage knowns profileKey =
      .ok (finalAdjust m inci
        (interpStage profile.base_solvent_range.1 m inci markers usage profileKey)) := by
  rw [estimate_percentages, hpa]

theorem estimate_err (score : String → String → ℕ) (inci : List String) (profile : Profile)
    (markers : List String) (usage : List (String × List (String × ℚ × ℚ)))
    (knowns : List (String × ℚ)) (profileKey : String) (e : EngineError)
    (hpa : placeAnchors score knowns inci = .error e) :
    estimate_percentages score inci profile markers usage knowns profileKey = .error e := by
  rw [estimate_percentages, hpa]

theorem findAnchor_skip (score : String → String → ℕ) (k : String) (p : ℚ)
    (l1 l2 : List (String × ℚ)) (name : String) (h : ¬ 95 < score k name) :
    findAnchor score (l1 ++ (k, p) :: l2) name = findAnchor score (l1 ++ l2) name := by
  rw [findAnchor, findAnchor]
  congr 1
  induction l1 with
  | nil =>
    simp only [List.nil_append]
    rw [List.find?_cons]
    rw [show (decide (95 < score k name)) = false from decide_eq_false h]
  | cons q t ih =>
    simp only [List.cons_append]
    rw [List.find?_cons, List.find?_cons]
    cases hq : decide (95 < score q.1 name) with
    | true => rfl
    | false => exact ih

theorem placeAnchorsAux_congr (score : String → String → ℕ) (k1 k2 : List (String × ℚ))
    (l : List String) (h : ∀ name ∈ l, findAnchor score k1 name = findAnchor score k2 name) :
    ∀ (i : ℕ) (m : List (String × ℚ × ℕ)) (lp : ℚ) (li : ℤ),
      placeAnchorsAux score k1 l i m lp li = placeAnchorsAux score k2 l i m lp li := by
  induction l with
  | nil => intro i m lp li; rfl
  | cons name rest ih =>
    intro i m lp li
    have hname := h name (List.mem_cons_self _ _)
    have hrest := fun n hn => h n (List.mem_cons_of_mem _ hn)
    cases hfa : findAnchor score k1 name with
    | none =>
      rw [placeAnchorsAux_cons_none _ _ _ _ _ _ _ _ hfa,
        placeAnchorsAux_cons_none _ _ _ _ _ _ _ _ (hname ▸ hfa)]
      exact ih hrest _ _ _ _
    | some p =>
      by_cases hlt : lp < p
      · rw [placeAnchorsAux_cons_lt _ _ _ _ _ _ _ _ _ hfa hlt,
          placeAnchorsAux_cons_lt _ _ _ _ _ _ _ _ _ (hname ▸ hfa) hlt]
      · rw [placeAnchorsAux_cons_ge _ _ _ _ _ _ _ _ _ hfa hlt,
          placeAnchorsAux_cons_ge _ _ _ _ _ _ _ _ _ (hname ▸ hfa) hlt]
        exact ih hrest _ _ _ _

theorem estimate_congr_knowns (score : String → String → ℕ) (inci : List String)
    (profile : Profile) (markers : List String)
    (usage : List (String × List (String × ℚ × ℚ))) (k1 k2 : List (String × ℚ))
    (profileKey : String)
    (h : ∀ name ∈ inci, findAnchor score k1 name = findAnchor score k2 name) :
    estimate_percentages score inci profile markers usage k1 profileKey =
      estimate_percentages score inci profile markers usage k2 profileKey := by
  rw [estimate_percentages, estimate_percentages,
    show placeAnchors score k1 inci = placeAnchors score k2 inci from
      placeAnchorsAux_congr score k1 k2 inci h 0 [] 101 (-1)]

-- ## Parse fold lemma

theorem parse_fold_mem (ps : List (List Char)) :
    ∀ (acc : List (String × ℚ)) (n : String) (v : ℚ),
      (n, v) ∈ ps.foldl (fun acc pair =>
        if ':' ∈ pair then
          match parseDecimal? (trimList ((pair.dropWhile (fun c => c ≠ ':')).drop 1)) with
          | some w => insertKV acc (lowerStr (String.mk (trimList
              (pair.takeWhile (fun c => c ≠ ':'))))) w
          | none => acc
        else acc) acc →
      (n, v) ∈ acc ∨ ∃ pair ∈ ps, ':' ∈ pair ∧
        n = lowerStr (String.mk (trimList (pair.takeWhile (fun c => c ≠ ':')))) ∧
        parseDecimal? (trimList ((pair.dropWhile (fun c => c ≠ ':')).drop 1)) = some v := by
  induction ps with
  | nil =>
    intro acc n v h
    exact Or.inl h
  | cons p ps ih =>
    intro acc n v h
    rw [List.foldl_cons] at h
    rcases ih _ n v h with h1 | ⟨pair, hpair, hcl, he, hp⟩
    · by_cases hc : ':' ∈ p
      · rw [if_pos hc] at h1
        cases hd : parseDecimal? (trimList ((p.dropWhile (fun c => c ≠ ':')).drop 1)) with
        | some w =>
          rw [hd] at h1
          rcases mem_insertKV _ _ _ _ h1 with h2 | h2
          · right
            refine ⟨p, List.mem_cons_self _ _, hc, ?_, ?_⟩
            · exact congrArg Prod.fst h2
            · rw [hd]
              have := congrArg Prod.snd h2
              simp only at this
              rw [this]
          · exact Or.inl h2
        | none =>
          rw [hd] at h1
          exact Or.inl h1
      · rw [if_neg hc] at h1
        exact Or.inl h1
    · exact Or.inr ⟨pair, List.mem_cons_of_mem _ hpair, hcl, he, hp⟩

-- ## Claim C1

/-- C1, counterexample: a one-ingredient list fully covered by a known anchor of
50% is not rejected, yet the returned percentages sum to 50, far outside the
claimed `100 ± 1e-6` relative tolerance. -/
theorem c1_counterexample :
    (estimate_percentages exactScore ["a"] ⟨(60, 80)⟩ [] [] [("a", 50)] "k").toOption.map sumPerc
      = some 50 ∧ ¬ (|(50 : ℚ) - 100| ≤ 100 * (1 / 1000000)) := by
  constructor
  · decide
  · rw [show |(50 : ℚ) - 100| = 50 from by rw [abs_of_nonpos (by norm_num)]; norm_num]
    norm_num

/-- C1 (amended): if the ingredient list has no duplicate names and at least one
slot is unanchored, the output percentages of `estimate_percentages` sum to
exactly 100 (the residual step restores the total); with every slot anchored,
or with duplicated names, the sum can differ from 100. -/
theorem c1_amended_sum (score : String → String → ℕ) (inci : List String) (profile : Profile)
    (markers : List String) (usage : List (String × List (String × ℚ × ℚ)))
    (knowns : List (String × ℚ)) (profileKey : String) (m : List (String × ℚ × ℕ))
    (out : List (String × ℚ))
    (hpa : placeAnchors score knowns inci = .ok m)
    (hest : estimate_percentages score inci profile markers usage knowns profileKey = .ok out)
    (hnd : inci.Nodup) (hun : ∃ n ∈ inci, lookupKV m n = none) :
    sumPerc out = 100 := by
  rw [estimate_ok score inci profile markers usage knowns profileKey m hpa] at hest
  injection hest with e
  rw [← e]
  exact sumPerc_finalAdjust m inci _ hnd hun

/-- C1 witness: a concrete two-ingredient run whose output sums to exactly 100. -/
theorem c1_witness : sumPerc [("water", mkRat 12100 183), ("glycerin", mkRat 6200 183)] = 100 :=
  c1_amended_sum exactScore ["water", "glycerin"] ⟨(60, 80)⟩ [] [] [] "k" []
    [("water", mkRat 12100 183), ("glycerin", mkRat 6200 183)]
    (by decide) (by decide)
    (by decide) ⟨"water", by decide, by decide⟩

-- ## Claim C2

/-- C2, counterexample: known anchors summing to 105% (60% then 45%, a valid
non-increasing order) are accepted and a full result is returned: no
AnchorOverflow check exists anywhere in `estimate_percentages`. -/
theorem c2_counterexample :
    estimate_percentages exactScore ["a", "b"] ⟨(60, 80)⟩ [] [] [("a", 60), ("b", 45)] "k"
      = .ok [("a", 60), ("b", 45)] ∧ (60 : ℚ) + 45 > 100 := by
  constructor
  · decide
  · norm_num

/-- C2 (amended): the engine performs no anchor-overflow check at all; the only
failure path is the order validation of step 1, so the whole run succeeds
exactly when anchor placement succeeds, regardless of the anchor sum. -/
theorem c2_amended_no_overflow_check (score : String → String → ℕ) (inci : List String)
    (profile : Profile) (markers : List String)
    (usage : List (String × List (String × ℚ × ℚ))) (knowns : List (String × ℚ))
    (profileKey : String) :
    isOkE (estimate_percentages score inci profile markers usage knowns profileKey)
      = isOkE (placeAnchors score knowns inci) := by
  cases hpa : placeAnchors score knowns inci with
  | error e =>
    rw [estimate_err score inci profile markers usage knowns profileKey e hpa]
    rfl
  | ok m =>
    rw [estimate_ok score inci profile markers usage knowns profileKey m hpa]
    rfl

-- ## Claim C3

/-- C3, counterexample: on the list `["water", "glycerin"]` with base range
`(60, 80)`, the engine's pre-adjustment assignment is the single interpolation
pass with the start anchor fixed at the range's lower bound 60, and it differs
from the best-seen assignment of the specified 15-round bisection search: the
engine does not perform the search the claim describes. -/
theorem c3_counterexample :
    estimate_percentages exactScore ["water", "glycerin"] ⟨(60, 80)⟩ [] [] [] "k"
      = .ok (finalAdjust [] ["water", "glycerin"]
          (interpStage 60 [] ["water", "glycerin"] [] [] "k")) ∧
    specSearchBase [] ["water", "glycerin"] [] [] "k" 60 80
      ≠ interpStage 60 [] ["water", "glycerin"] [] [] "k" := by
  constructor
  · decide
  · decide

/-- C3 (amended): the engine performs no bisection search: the synthetic start
anchor is fixed at the lower bound of the profile's base solvent range, and the
range's upper bound never influences the result. -/
theorem c3_amended_no_search (score : String → String → ℕ) (inci : List String)
    (lo hi hi' : ℚ) (markers : List String)
    (usage : List (String × List (String × ℚ × ℚ))) (knowns : List (String × ℚ))
    (profileKey : String) :
    estimate_percentages score inci ⟨(lo, hi)⟩ markers usage knowns profileKey =
      estimate_percentages score inci ⟨(lo, hi')⟩ markers usage knowns profileKey := rfl

-- ## Claim C4

/-- C4, counterexample: with "water" at positions 0 and 7 of an 8-ingredient
list, the engine returns only 7 entries: percentages are keyed by name, so the
two occurrences collapse into a single slot instead of two independent
position-indexed slots with independent percentages. -/
theorem c4_counterexample :
    (estimate_percentages exactScore ["water", "a", "b", "c", "d", "e", "f", "water"]
      ⟨(60, 80)⟩ [] [] [] "k").toOption.map List.length = some 7 ∧
    (["water", "a", "b", "c", "d", "e", "f", "water"] : List String).length = 8 := by
  constructor
  · decide
  · decide

/-- C4 (amended): the engine keys percentages by ingredient name, so duplicate
occurrences collapse: every successful run returns exactly one entry per
distinct name, in first-occurrence order, rather than one per input position. -/
theorem c4_amended_one_entry_per_name (score : String → String → ℕ) (inci : List String)
    (profile : Profile) (markers : List String)
    (usage : List (String × List (String × ℚ × ℚ))) (knowns : List (String × ℚ))
    (profileKey : String) (out : List (String × ℚ))
    (hest : estimate_percentages score inci profile markers usage knowns profileKey = .ok out) :
    keysOf out = firstKeys inci := by
  cases hpa : placeAnchors score knowns inci with
  | error e =>
    rw [estimate_err score inci profile markers usage knowns profileKey e hpa] at hest
    exact absurd hest (by simp)
  | ok m =>
    rw [estimate_ok score inci profile markers usage knowns profileKey m hpa] at hest
    injection hest with e
    rw [← e]
    have hm : ∀ kv ∈ m, kv.1 ∈ inci :=
      placeAnchorsAux_keys score knowns (fun n => n ∈ inci) inci 0 [] (qi 101) (-1) m hpa
        (by intro kv h; simp at h) (fun n hn => hn)
    have hkeys := keysOf_interpStage profile.base_solvent_range.1 m inci markers usage
      profileKey hm
    have hsub : ∀ x ∈ inci, x ∈ keysOf (interpStage profile.base_solvent_range.1 m inci
        markers usage profileKey) := by
      intro x hx
      rw [hkeys, mem_firstKeys]
      exact hx
    rw [keysOf_finalAdjust _ _ _ hsub, hkeys]

/-- C4 witness: the two-copy list `["water", "water"]` yields a single output
entry whose key list is the deduplicated name list. -/
theorem c4_witness : keysOf [("water", mkRat 32761 186)] = firstKeys ["water", "water"] :=
  c4_amended_one_entry_per_name exactScore ["water", "water"] ⟨(60, 80)⟩ [] [] [] "k"
    [("water", mkRat 32761 186)] (by decide)

-- ## Claim C5

/-- C5, counterexample: the anchors `a: 150, b: 150` have equal percentages, so
the claim says they are accepted, but the engine rejects them: the internal
sentinel `101.0` makes any first anchor above 101 fail the order check, and the
reported pair is the synthetic fallback, not a real pair of resolved anchors. -/
theorem c5_counterexample :
    resolvedAnchorPercs exactScore [("a", 150), ("b", 150)] ["a", "b"] = [150, 150] ∧
    estimate_percentages exactScore ["a", "b"] ⟨(60, 80)⟩ [] [] [("a", 150), ("b", 150)] "k"
      = .error ⟨"Ingredient at position 0", qi 101, "a", 150⟩ := by
  constructor
  · decide
  · decide

/-- C5 (amended): whenever the resolved anchor percentages, read in position
order, are not non-increasing, the engine rejects the request with an
order-violation error before any percentage computation and returns no result;
conversely a non-increasing sequence is accepted provided every value is at
most the internal sentinel 101 — equal percentages included. A first anchor
above 101 is rejected even without any violating pair. -/
theorem c5_amended_order_rejection (score : String → String → ℕ) (inci : List String)
    (profile : Profile) (markers : List String)
    (usage : List (String × List (String × ℚ × ℚ))) (knowns : List (String × ℚ))
    (profileKey : String) :
    (¬ List.Chain' (fun a b => b ≤ a) (resolvedAnchorPercs score knowns inci) →
      ∃ e, estimate_percentages score inci profile markers usage knowns profileKey
        = .error e) ∧
    (List.Chain' (fun a b => b ≤ a) (resolvedAnchorPercs score knowns inci) →
      (∀ p ∈ resolvedAnchorPercs score knowns inci, p ≤ qi 101) →
      ∃ out, estimate_percentages score inci profile markers usage knowns profileKey
        = .ok out) := by
  constructor
  · intro hch
    cases hpa : placeAnchors score knowns inci with
    | error e => exact ⟨e, estimate_err score inci profile markers usage knowns profileKey e hpa⟩
    | ok m =>
      exfalso
      have := placeAnchorsAux_ok_chain score knowns inci 0 [] (qi 101) (-1) m hpa
      exact hch this.tail
  · intro hch hle
    have hch2 : List.Chain' (fun a b => b ≤ a)
        (qi 101 :: resolvedAnchorPercs score knowns inci) := by
      rw [List.chain'_cons']
      exact ⟨fun b hb => hle b (List.mem_of_mem_head? hb), hch⟩
    rcases chain_placeAnchorsAux_ok score knowns inci 0 [] (qi 101) (-1) hch2 with ⟨m, hm⟩
    exact ⟨_, estimate_ok score inci profile markers usage knowns profileKey m hm⟩

/-- C5 witness: anchors `5, 9` (increasing) are rejected; anchors `9, 5`
(non-increasing, below the sentinel) are accepted. -/
theorem c5_witness :
    (∃ e, estimate_percentages exactScore ["a", "b"] ⟨(60, 80)⟩ [] [] [("a", 5), ("b", 9)] "k"
      = .error e) ∧
    (∃ out, estimate_percentages exactScore ["a", "b"] ⟨(60, 80)⟩ [] [] [("a", 9), ("b", 5)] "k"
      = .ok out) :=
  ⟨(c5_amended_order_rejection exactScore ["a", "b"] ⟨(60, 80)⟩ [] []
      [("a", 5), ("b", 9)] "k").1 (by
        rw [show resolvedAnchorPercs exactScore [("a", 5), ("b", 9)] ["a", "b"] = [5, 9] from
          by decide]
        intro hch
        rw [List.chain'_cons] at hch
        have h95 : (9 : ℚ) ≤ 5 := hch.1
        norm_num at h95),
   (c5_amended_order_rejection exactScore ["a", "b"] ⟨(60, 80)⟩ [] []
      [("a", 9), ("b", 5)] "k").2 (by
        rw [show resolvedAnchorPercs exactScore [("a", 9), ("b", 5)] ["a", "b"] = [9, 5] from
          by decide]
        rw [List.chain'_cons]
        exact ⟨by norm_num, List.chain'_singleton _⟩)
      (by
        rw [show resolvedAnchorPercs exactScore [("a", 9), ("b", 5)] ["a", "b"] = [9, 5] from
          by decide]
        intro p hp
        rcases List.mem_cons.1 hp with h1 | h1
        · subst h1
          decide
        · rw [List.mem_singleton] at h1
          subst h1
          decide)⟩

-- ## Claim C6

/-- C6, counterexample: a one-ingredient list whose only name is a marker puts
the one-percent line at position 0; the sub-line pass assigns 0.275, but the
final residual redistribution inflates that same slot to 100, far above the
claimed 1.0 cap. -/
theorem c6_counterexample :
    estimate_percentages exactScore ["phenoxyethanol"] ⟨(60, 80)⟩ ["phenoxyethanol"] [] [] "k"
      = .ok [("phenoxyethanol", 100)] ∧
    onePercentLineIndex ["phenoxyethanol"] [] ["phenoxyethanol"] = 0 ∧
    ¬ ((100 : ℚ) ≤ 1) := by
  refine ⟨by decide, by decide, by norm_num⟩

/-- C6 (amended): the sub-line pass itself caps every value it assigns at 1.0
(for every slot at or after the computed one-percent line), but anchored slots
and the final residual redistribution may leave slots at or after the line
above 1.0, so the cap does not hold for the returned result. -/
theorem c6_amended_subline_cap (usage : List (String × List (String × ℚ × ℚ)))
    (profileKey : String) (m : List (String × ℚ × ℕ)) (markers inci : List String) :
    ∀ p ∈ subLineWrites usage profileKey m inci (onePercentLineIndex markers m inci),
      p.2 ≤ 1 := by
  intro p hp
  exact subLineWrites_val_le_one usage profileKey m inci _ p hp

/-- C6 witness: the marker slot of a one-ingredient list receives 0.275 from
the sub-line pass, within the cap. -/
theorem c6_witness :
    ("phenoxyethanol", mkRat 11 40) ∈ subLineWrites [] "k" [] ["phenoxyethanol"]
      (onePercentLineIndex ["phenoxyethanol"] [] ["phenoxyethanol"]) ∧
    (mkRat 11 40 : ℚ) ≤ 1 :=
  ⟨by decide,
   c6_amended_subline_cap [] "k" [] ["phenoxyethanol"] ["phenoxyethanol"]
     ("phenoxyethanol", mkRat 11 40) (by decide)⟩

-- ## Claim C7

/-- C7, counterexample: with anchors `b: 90, c: 90` on `["a", "b", "c"]`, the
residual adjustment drives slot "a" to −80 and the engine returns it as-is:
no clamp to zero exists anywhere in `estimate_percentages`. -/
theorem c7_counterexample :
    estimate_percentages exactScore ["a", "b", "c"] ⟨(60, 80)⟩ [] [] [("b", 90), ("c", 90)] "k"
      = .ok [("a", mkRat (-80) 1), ("b", 90), ("c", 90)] ∧ (mkRat (-80) 1 : ℚ) < 0 := by
  refine ⟨by decide, by decide⟩

/-- C7 (amended): before the final residual adjustment every slot is
nonnegative, provided the known-percentage values, the base-range minimum and
the usage-range bounds are nonnegative; the final adjustment can drive slots
negative and no clamp is applied afterwards. -/
theorem c7_amended_nonneg_before_adjust (score : String → String → ℕ) (inci : List String)
    (markers : List String) (usage : List (String × List (String × ℚ × ℚ)))
    (knowns : List (String × ℚ)) (profileKey : String) (startPerc : ℚ)
    (m : List (String × ℚ × ℕ))
    (hpa : placeAnchors score knowns inci = .ok m)
    (hk : ∀ e ∈ knowns, 0 ≤ e.2) (hstart : 0 ≤ startPerc)
    (hu : ∀ e ∈ usage, ∀ r ∈ e.2, 0 ≤ r.2.1 ∧ 0 ≤ r.2.2) :
    ∀ p ∈ interpStage startPerc m inci markers usage profileKey, 0 ≤ p.2 := by
  have hanch : ∀ kv ∈ m, 0 ≤ kv.2.1 := by
    intro kv hkv
    rcases placeAnchorsAux_values score knowns inci 0 [] (qi 101) (-1) m hpa
      (by intro kv h; simp at h) kv hkv with ⟨e, he, hev, _⟩
    rw [← hev]
    exact hk e he
  exact interpStage_val_nonneg startPerc m inci markers usage profileKey hstart hanch hu

/-- C7 witness: the pre-adjustment assignment of the counterexample run is
nonnegative at slot "a" (value 75); only the final adjustment makes it −80. -/
theorem c7_witness :
    ("a", (75 : ℚ)) ∈ interpStage 60 [("b", (90, 1)), ("c", (90, 2))] ["a", "b", "c"] [] [] "k"
      ∧ (0 : ℚ) ≤ 75 :=
  ⟨by decide,
   c7_amended_nonneg_before_adjust exactScore ["a", "b", "c"] [] [] [("b", 90), ("c", 90)]
     "k" 60 [("b", (90, 1)), ("c", (90, 2))] (by decide) (by decide) (by decide) (by decide)
     ("a", (75 : ℚ)) (by decide)⟩

-- ## Claim C8

/-- C8, counterexample: the known entry `zzz: 5` matches no slot of
`["water"]` (score 0, below the 95 threshold), yet the engine does not fail: it
silently proceeds and returns the same result as without the entry. -/
theorem c8_counterexample :
    estimate_percentages exactScore ["water"] ⟨(60, 80)⟩ [] [] [("zzz", 5)] "k"
      = .ok [("water", 100)] ∧ exactScore "zzz" "water" = 0 := by
  refine ⟨by decide, by decide⟩

/-- C8 (amended): a known-percentage entry whose name matches no slot above the
95 threshold is silently discarded: removing it from the known-percentage dict
leaves the engine's result unchanged, and no error is raised. -/
theorem c8_amended_silently_dropped (score : String → String → ℕ) (inci : List String)
    (profile : Profile) (markers : List String)
    (usage : List (String × List (String × ℚ × ℚ))) (profileKey : String)
    (l1 l2 : List (String × ℚ)) (k : String) (p : ℚ)
    (h : ∀ name ∈ inci, ¬ 95 < score k name) :
    estimate_percentages score inci profile markers usage (l1 ++ (k, p) :: l2) profileKey =
      estimate_percentages score inci profile markers usage (l1 ++ l2) profileKey := by
  apply estimate_congr_knowns
  intro name hn
  exact findAnchor_skip score k p l1 l2 name (h name hn)

/-- C8 witness: dropping the unmatched entry `zzz: 5` leaves the concrete run
unchanged. -/
theorem c8_witness :
    estimate_percentages exactScore ["water"] ⟨(60, 80)⟩ [] [] ([] ++ ("zzz", 5) :: []) "k" =
      estimate_percentages exactScore ["water"] ⟨(60, 80)⟩ [] [] ([] ++ []) "k" :=
  c8_amended_silently_dropped exactScore ["water"] ⟨(60, 80)⟩ [] [] "k" [] [] "zzz" 5
    (by decide)

-- ## Claim C9

/-- C9: anchor immutability. Every validated anchor's output percentage equals
the matched user-supplied known-percentage value exactly: the sub-line pass,
the interpolation and the residual redistribution all skip anchored names. -/
theorem c9_anchor_immutability (score : String → String → ℕ) (inci : List String)
    (profile : Profile) (markers : List String)
    (usage : List (String × List (String × ℚ × ℚ))) (knowns : List (String × ℚ))
    (profileKey : String) (m : List (String × ℚ × ℕ)) (out : List (String × ℚ))
    (n : String) (p : ℚ) (i : ℕ)
    (hpa : placeAnchors score knowns inci = .ok m)
    (hest : estimate_percentages score inci profile markers usage knowns profileKey = .ok out)
    (hmem : (n, p, i) ∈ m) :
    lookupKV out n = some p ∧ ∃ e ∈ knowns, e.2 = p ∧ 95 < score e.1 n := by
  rw [estimate_ok score inci profile markers usage knowns profileKey m hpa] at hest
  injection hest with e
  rw [← e]
  have hnd : (keysOf m).Nodup :=
    placeAnchorsAux_nodup score knowns inci 0 [] (qi 101) (-1) m hpa (by simp [keysOf])
  have hsome : lookupKV m n = some (p, i) := lookupKV_of_mem_nodup _ _ _ hmem hnd
  constructor
  · rw [lookupKV_finalAdjust_anchored m inci _ n (p, i) hsome]
    exact lookupKV_interpStage_anchored _ m inci markers usage profileKey n p i hnd hmem
  · rcases placeAnchorsAux_values score knowns inci 0 [] (qi 101) (-1) m hpa
      (by intro kv h; simp at h) (n, p, i) hmem with ⟨e2, he2, hev, hsc⟩
    exact ⟨e2, he2, hev, hsc⟩

/-- C9 witness: the anchor `b: 40` on `["a", "b"]` comes back at exactly 40. -/
theorem c9_witness :
    lookupKV [("a", (60 : ℚ)), ("b", (40 : ℚ))] "b" = some 40 ∧
      ∃ e ∈ [("b", (40 : ℚ))], e.2 = 40 ∧ 95 < exactScore e.1 "b" :=
  c9_anchor_immutability exactScore ["a", "b"] ⟨(60, 80)⟩ [] [] [("b", 40)] "k"
    [("b", (40, 1))] [("a", (60 : ℚ)), ("b", (40 : ℚ))] "b" 40 1
    (by decide) (by decide) (by decide)

-- ## Claim C10

/-- C10: `parse_known_percentages` is total (modelled as a total function, it
raises nothing): the empty string yields the empty map, and every entry of the
result comes from a comma-separated pair that contains a colon and whose
percentage part parses as a number, mapped under its trimmed lower-cased name;
pairs without a colon or with an unparsable number are silently dropped. -/
theorem c10_parse_behavior :
    parse_known_percentages "" = [] ∧
    ∀ (s n : String) (v : ℚ), (n, v) ∈ parse_known_percentages s →
      ∃ pair ∈ splitOnChar ',' s.data, ':' ∈ pair ∧
        n = lowerStr (String.mk (trimList (pair.takeWhile (fun c => c ≠ ':')))) ∧
        parseDecimal? (trimList ((pair.dropWhile (fun c => c ≠ ':')).drop 1)) = some v := by
  constructor
  · rfl
  · intro s n v h
    by_cases hs : s = ""
    · subst hs
      rw [parse_known_percentages, if_pos rfl] at h
      simp at h
    · rw [parse_known_percentages, if_neg hs] at h
      rcases parse_fold_mem (splitOnChar ',' s.data) [] n v h with h1 | h1
      · simp at h1
      · exact h1

/-- C10 witness: parsing `"Water: 5.5"` yields the entry `("water", 5.5)`,
traced back to its source pair. -/
theorem c10_witness :
    ∃ pair ∈ splitOnChar ',' ("Water: 5.5".data), ':' ∈ pair ∧
      "water" = lowerStr (String.mk (trimList (pair.takeWhile (fun c => c ≠ ':')))) ∧
      parseDecimal? (trimList ((pair.dropWhile (fun c => c ≠ ':')).drop 1))
        = some (mkRat 11 2) :=
  c10_parse_behavior.2 "Water: 5.5" "water" (mkRat 11 2) (by decide)
